import Mathlib

/-!
Shallow embedding of a DPLL-style CNF SAT solver (Rust crate `solver`,
files `src/lib.rs` and `src/main.rs`) together with proofs about its
specification claims.

Conventions of the embedding:
* Rust `isize` literals are modelled as `Int` (parse range checked
  explicitly against the 64-bit bounds where the parser is modelled).
* In-place mutation (`&mut self`) is modelled by returning the updated
  value; `Formula::with_true` returns the pair (fresh copy, receiver
  value after the call) to make the frame property expressible.
* The `hashbrown::HashMap` used by `Formula::mom` is modelled by an
  insertion-ordered key list plus a count function; iteration order of
  the real hash map is unspecified, so the relational predicate
  `IsMomResult` captures every literal the real `max_by_key` call could
  return, while `Formula.mom` fixes insertion order as one
  deterministic instance.
* `solve` is parametrised by a `Picker`: any branching heuristic whose
  result satisfies the guaranteed postcondition of `Formula::mom`.
  `momPicker` instantiates it with the deterministic model.
-/

/-- A literal, a nonzero signed integer in the DIMACS convention. -/
abbrev Literal := Int

/-- A clause, an ordered list of literals. -/
abbrev Clause := List Literal

/-- Search-node state: the assignment trail plus the unresolved clauses. -/
structure Formula where
  assignments : List Literal
  clauses : List Clause
deriving DecidableEq, Inhabited

/-- Search statistics: unit propagations and visited nodes. -/
structure State where
  unit_propagation_counter : Nat
  node_counter : Nat
deriving DecidableEq, Inhabited

/-- Model of Rust `Vec::swap_remove i`: the element at `i` is replaced by
the last element and the last slot is dropped. -/
def swapRemove (c : Clause) (i : Nat) : Clause :=
  (c.set i (c.getLastD 0)).dropLast

/-- Remove the first occurrence of `inv` from `c` via `swap_remove`,
as in the body of `Formula::assign_true`. -/
def stripNeg (inv : Literal) (c : Clause) : Clause :=
  match c.findIdx? (fun lit => lit == inv) with
  | some i => swapRemove c i
  | none => c

/-- Model of `Formula::assign_true`: push the literal on the trail,
retain only clauses not containing it, and strip the first occurrence
of the negated literal from each remaining clause. -/
def Formula.assign_true (f : Formula) (literal : Literal) : Formula :=
  let kept := f.clauses.filter (fun clause => !(clause.contains literal))
  { assignments := f.assignments ++ [literal]
    clauses := kept.map (stripNeg (-literal)) }

/-- Model of `Formula::with_true`: first component is the clone with the
literal assigned, second component is the receiver after the call. -/
def Formula.with_true (f : Formula) (literal : Literal) : Formula × Formula :=
  (f.assign_true literal, f)

/-- Model of `Vec::sort` on the collected unit literals: sorting integers
has a unique result, provided here by insertion sort. -/
def sortLits (l : List Literal) : List Literal :=
  l.insertionSort (· ≤ ·)

/-- Model of `Vec::dedup`: remove consecutive duplicate elements. -/
def dedupAdj : List Literal → List Literal
  | [] => []
  | [a] => [a]
  | a :: b :: rest =>
    if a = b then dedupAdj (b :: rest) else a :: dedupAdj (b :: rest)

/-- The literals collected by `Formula::unit_propagate` before
sorting/dedup: one per clause of length exactly one. -/
def unitLits (f : Formula) : List Literal :=
  (f.clauses.filter (fun clause => clause.length == 1)).map (fun u => u.headD 0)

/-- Model of `Formula::unit_propagate`: collect unit-clause literals,
sort and dedup them, bump the counter, then assign each in order. -/
def Formula.unit_propagate (f : Formula) (state : State) : Formula × State :=
  let assign_to_true := dedupAdj (sortLits (unitLits f))
  let state' := { state with
    unit_propagation_counter :=
      state.unit_propagation_counter + assign_to_true.length }
  (assign_to_true.foldl (fun g l => g.assign_true l) f, state')

/-- The first fallible step of `Formula::mom`: minimum clause length. -/
def minLen? (f : Formula) : Option Nat :=
  (f.clauses.map List.length).min?

/-- The clauses of minimal length scanned by `Formula::mom`
(empty when the clause list is empty, i.e. when the real code panics). -/
def momMinClauses (f : Formula) : List Clause :=
  match minLen? f with
  | some m => f.clauses.filter (fun clause => clause.length == m)
  | none => []

/-- All literal occurrences scanned by the tally loop of `Formula::mom`. -/
def momPool (f : Formula) : List Literal :=
  (momMinClauses f).flatten

/-- One step of the tally loop of `Formula::mom` on the hash-map model
(key list in insertion order, count function): a known key is bumped,
a fresh key is inserted with count `0`. -/
def tallyStep (acc : List Literal × (Literal → Nat)) (lit : Literal) :
    List Literal × (Literal → Nat) :=
  if lit ∈ acc.1 then
    (acc.1, fun x => if x = lit then acc.2 lit + 1 else acc.2 x)
  else
    (acc.1 ++ [lit], fun x => if x = lit then 0 else acc.2 x)

/-- The hash-map contents after the tally loop of `Formula::mom`. -/
def momTally (f : Formula) : List Literal × (Literal → Nat) :=
  (momPool f).foldl tallyStep ([], fun _ => 0)

/-- Keys of the tally map, in insertion order. -/
def momKeysAll (f : Formula) : List Literal :=
  (momTally f).1

/-- Count stored in the tally map for a literal. -/
def momCount (f : Formula) (x : Literal) : Nat :=
  (momTally f).2 x

/-- Model of Rust `Iterator::max_by_key` on `(literal, count)` pairs:
on ties the later element wins; `none` on the empty iterator
(the second `unwrap` of `Formula::mom`). -/
def maxByVal : List (Literal × Nat) → Option (Literal × Nat)
  | [] => none
  | p :: rest =>
    some (rest.foldl (fun best q => if best.2 ≤ q.2 then q else best) p)

/-- The result of `Formula::mom` with both `unwrap`s made explicit;
`none` models a panic. -/
def Formula.momStep (f : Formula) : Option Literal :=
  (maxByVal ((momKeysAll f).map (fun k => (k, momCount f k)))).map (fun p => p.1)

/-- Deterministic model of `Formula::mom` (insertion-order iteration);
the default value `0` is never produced at the call sites of `solve`. -/
def Formula.mom (f : Formula) : Literal :=
  (f.momStep).getD 0

/-- Guaranteed postcondition of `Formula::mom`, independent of the hash
iteration order: the result is a tallied key of maximal stored count. -/
def IsMomResult (f : Formula) (l : Literal) : Prop :=
  l ∈ momKeysAll f ∧ ∀ k ∈ momKeysAll f, momCount f k ≤ momCount f l

instance (f : Formula) (l : Literal) : Decidable (IsMomResult f l) := by
  unfold IsMomResult; infer_instance

/-- Result type of `solve`: `some trail` for SAT, `none` for UNSAT. -/
abbrev SatResult := Option (List Literal)

/-- Termination measure: total literal count plus clause count. -/
def Formula.size (f : Formula) : Nat :=
  (f.clauses.map (fun c => c.length + 1)).sum

/-- A branching heuristic together with the proof that it meets the
postcondition of `Formula::mom` whenever `solve` invokes it (clause
list nonempty and free of empty clauses). -/
structure Picker where
  pick : Formula → Literal
  pick_valid : ∀ f : Formula, f.clauses ≠ [] →
    (∀ c ∈ f.clauses, c ≠ []) → IsMomResult f (pick f)

/-! ### Permutation facts about `swapRemove` and `stripNeg` -/

theorem swapRemove_perm : ∀ (c : Clause) (i : Nat), i < c.length →
    (swapRemove c i).Perm (c.eraseIdx i)
  | [], i, h => by simp at h
  | a :: t, 0, _ => by
    cases t with
    | nil => simp [swapRemove]
    | cons b t' =>
      unfold swapRemove
      rw [List.getLastD_cons, List.set_cons_zero, List.eraseIdx_cons_zero]
      have hne : (b :: t') ≠ [] := by simp
      have hlast : (b :: t').getLastD a = (b :: t').getLast hne := by
        rw [List.getLastD_eq_getLast?, List.getLast?_eq_getLast _ hne]
        rfl
      rw [hlast, List.dropLast_cons₂]
      have hperm := (List.perm_append_singleton ((b :: t').getLast hne)
        ((b :: t').dropLast)).symm
      rwa [List.dropLast_append_getLast hne] at hperm
  | a :: t, i + 1, h => by
    have hi : i < t.length := by simpa using h
    have htne : t ≠ [] := List.ne_nil_of_length_pos (Nat.lt_of_le_of_lt (Nat.zero_le _) hi)
    unfold swapRemove
    rw [List.eraseIdx_cons_succ, List.set_cons_succ]
    have hlast : (a :: t).getLastD 0 = t.getLastD 0 := by
      cases t with
      | nil => exact absurd rfl htne
      | cons b t' => simp [List.getLastD_cons]
    rw [hlast]
    have hsetne : t.set i (t.getLastD 0) ≠ [] := by
      simpa using htne
    rw [List.dropLast_cons_of_ne_nil hsetne]
    exact (swapRemove_perm t i hi).cons a

theorem erase_eq_eraseIdx_of_findIdx : ∀ (c : Clause) (x : Literal) (i : Nat),
    c.findIdx? (fun lit => lit == x) = some i →
    i < c.length ∧ c.erase x = c.eraseIdx i
  | [], x, i, h => by simp at h
  | a :: t, x, i, h => by
    rw [List.findIdx?_cons] at h
    by_cases hax : (a == x) = true
    · rw [if_pos hax] at h
      cases h
      refine ⟨by simp, ?_⟩
      rw [List.erase_cons, if_pos hax, List.eraseIdx_cons_zero]
    · rw [if_neg hax, List.findIdx?_succ] at h
      rcases Option.map_eq_some'.mp h with ⟨j, hj, rfl⟩
      obtain ⟨hjlt, hje⟩ := erase_eq_eraseIdx_of_findIdx t x j hj
      refine ⟨by simpa using hjlt, ?_⟩
      rw [List.erase_cons, if_neg hax, List.eraseIdx_cons_succ, hje]

theorem stripNeg_perm (inv : Literal) (c : Clause) :
    (stripNeg inv c).Perm (c.erase inv) := by
  unfold stripNeg
  cases h : c.findIdx? (fun lit => lit == inv) with
  | none =>
    rw [List.findIdx?_eq_none_iff] at h
    have : inv ∉ c := by
      intro hmem
      have := h inv hmem
      simp at this
    rw [List.erase_of_not_mem this]
  | some i =>
    obtain ⟨hlt, he⟩ := erase_eq_eraseIdx_of_findIdx c inv i h
    rw [he]
    exact swapRemove_perm c i hlt

theorem stripNeg_length_le (inv : Literal) (c : Clause) :
    (stripNeg inv c).length ≤ c.length := by
  rw [(stripNeg_perm inv c).length_eq]
  exact List.length_erase_le inv c

theorem stripNeg_length_lt_of_mem {inv : Literal} {c : Clause} (h : inv ∈ c) :
    (stripNeg inv c).length < c.length := by
  rw [(stripNeg_perm inv c).length_eq, List.length_erase_of_mem h]
  exact Nat.sub_lt (List.length_pos_of_mem h) Nat.one_pos

theorem mem_of_mem_stripNeg {inv x : Literal} {c : Clause}
    (h : x ∈ stripNeg inv c) : x ∈ c :=
  List.mem_of_mem_erase ((stripNeg_perm inv c).mem_iff.mp h)

theorem mem_stripNeg_of_ne {inv x : Literal} {c : Clause} (hne : x ≠ inv)
    (h : x ∈ c) : x ∈ stripNeg inv c :=
  (stripNeg_perm inv c).mem_iff.mpr ((List.mem_erase_of_ne hne).mpr h)

theorem count_stripNeg_self (inv : Literal) (c : Clause) :
    (stripNeg inv c).count inv = c.count inv - 1 := by
  rw [(stripNeg_perm inv c).count_eq, List.count_erase_self]

theorem not_mem_stripNeg_of_count_le {inv : Literal} {c : Clause}
    (h : c.count inv ≤ 1) : inv ∉ stripNeg inv c := by
  rw [← List.count_eq_zero, count_stripNeg_self]
  omega

theorem nodup_stripNeg {inv : Literal} {c : Clause} (h : c.Nodup) :
    (stripNeg inv c).Nodup :=
  (stripNeg_perm inv c).nodup_iff.mpr (h.erase inv)

theorem not_mem_stripNeg_of_nodup {inv : Literal} {c : Clause} (h : c.Nodup) :
    inv ∉ stripNeg inv c :=
  not_mem_stripNeg_of_count_le (List.nodup_iff_count_le_one.mp h inv)

/-! ### Basic shape of `assign_true` and the size measure -/

/-- The clause-list transformation performed by `Formula::assign_true`. -/
def assignClauses (l : Literal) (cs : List Clause) : List Clause :=
  (cs.filter (fun c => !(c.contains l))).map (stripNeg (-l))

theorem assign_true_clauses (f : Formula) (l : Literal) :
    (f.assign_true l).clauses = assignClauses l f.clauses := rfl

theorem assign_true_assignments (f : Formula) (l : Literal) :
    (f.assign_true l).assignments = f.assignments ++ [l] := rfl

theorem mem_assignClauses {l : Literal} {cs : List Clause} {c' : Clause}
    (h : c' ∈ assignClauses l cs) :
    ∃ c ∈ cs, l ∉ c ∧ c' = stripNeg (-l) c := by
  rcases List.mem_map.mp h with ⟨c, hc, rfl⟩
  rcases List.mem_filter.mp hc with ⟨hcf, hpred⟩
  exact ⟨c, hcf, by simpa using hpred, rfl⟩

theorem stripNeg_mem_assignClauses {l : Literal} {cs : List Clause} {c : Clause}
    (hc : c ∈ cs) (hl : l ∉ c) : stripNeg (-l) c ∈ assignClauses l cs :=
  List.mem_map_of_mem _ (List.mem_filter.mpr ⟨hc, by simpa using hl⟩)

/-- Size of a clause list: total literal count plus clause count. -/
def clausesSize (cs : List Clause) : Nat :=
  (cs.map (fun c => c.length + 1)).sum

theorem size_eq_clausesSize (f : Formula) : f.size = clausesSize f.clauses := rfl

theorem clausesSize_cons (c : Clause) (cs : List Clause) :
    clausesSize (c :: cs) = (c.length + 1) + clausesSize cs := by
  simp [clausesSize]

theorem assignClauses_cons_mem {l : Literal} {c : Clause} (cs : List Clause)
    (hc : l ∈ c) : assignClauses l (c :: cs) = assignClauses l cs := by
  unfold assignClauses
  rw [List.filter_cons]
  simp [hc]

theorem assignClauses_cons_not_mem {l : Literal} {c : Clause} (cs : List Clause)
    (hc : l ∉ c) :
    assignClauses l (c :: cs) = stripNeg (-l) c :: assignClauses l cs := by
  unfold assignClauses
  rw [List.filter_cons]
  simp [hc]

theorem clausesSize_assignClauses_le (l : Literal) :
    ∀ cs : List Clause, clausesSize (assignClauses l cs) ≤ clausesSize cs
  | [] => Nat.le_refl _
  | c :: cs => by
    have ih := clausesSize_assignClauses_le l cs
    by_cases hc : l ∈ c
    · rw [assignClauses_cons_mem cs hc, clausesSize_cons]
      omega
    · rw [assignClauses_cons_not_mem cs hc, clausesSize_cons, clausesSize_cons]
      have := stripNeg_length_le (-l) c
      omega

theorem clausesSize_assignClauses_lt (l : Literal) :
    ∀ cs : List Clause, (∃ c ∈ cs, l ∈ c ∨ -l ∈ c) →
      clausesSize (assignClauses l cs) < clausesSize cs
  | [], h => by simp at h
  | c :: cs, h => by
    by_cases hc : l ∈ c
    · rw [assignClauses_cons_mem cs hc, clausesSize_cons]
      have := clausesSize_assignClauses_le l cs
      omega
    · rw [assignClauses_cons_not_mem cs hc, clausesSize_cons, clausesSize_cons]
      rcases h with ⟨c₀, hc₀, hor⟩
      rcases List.mem_cons.mp hc₀ with rfl | hmem
      · have hneg : -l ∈ c₀ := by
          rcases hor with h' | h'
          · exact absurd h' hc
          · exact h'
        have hlt := stripNeg_length_lt_of_mem hneg
        have := clausesSize_assignClauses_le l cs
        omega
      · have hlt := clausesSize_assignClauses_lt l cs ⟨c₀, hmem, hor⟩
        have := stripNeg_length_le (-l) c
        omega

theorem size_assign_true_le (f : Formula) (l : Literal) :
    (f.assign_true l).size ≤ f.size :=
  clausesSize_assignClauses_le l f.clauses

theorem size_assign_true_lt {f : Formula} {l : Literal}
    (h : ∃ c ∈ f.clauses, l ∈ c ∨ -l ∈ c) :
    (f.assign_true l).size < f.size :=
  clausesSize_assignClauses_lt l f.clauses h

theorem size_foldl_assign_le :
    ∀ (L : List Literal) (f : Formula),
      (L.foldl (fun g l => g.assign_true l) f).size ≤ f.size
  | [], _ => Nat.le_refl _
  | l :: L, f =>
    Nat.le_trans (size_foldl_assign_le L (f.assign_true l)) (size_assign_true_le f l)

theorem size_unit_propagate_le (f : Formula) (s : State) :
    ((f.unit_propagate s).1).size ≤ f.size :=
  size_foldl_assign_le _ f

theorem unit_propagate_fst (f : Formula) (s : State) :
    (f.unit_propagate s).1
      = (dedupAdj (sortLits (unitLits f))).foldl (fun g l => g.assign_true l) f := rfl

theorem unit_propagate_snd (f : Formula) (s : State) :
    (f.unit_propagate s).2
      = { s with unit_propagation_counter :=
            s.unit_propagation_counter + (dedupAdj (sortLits (unitLits f))).length } := rfl

/-! ### Keys of the mom tally -/

theorem tallyStep_fst (acc : List Literal × (Literal → Nat)) (x : Literal) :
    (tallyStep acc x).1 = if x ∈ acc.1 then acc.1 else acc.1 ++ [x] := by
  unfold tallyStep
  split
  · rfl
  · rfl

theorem tally_keys_mem :
    ∀ (xs : List Literal) (acc : List Literal × (Literal → Nat)) (k : Literal),
      (k ∈ (xs.foldl tallyStep acc).1) ↔ (k ∈ acc.1 ∨ k ∈ xs)
  | [], acc, k => by simp
  | x :: xs, acc, k => by
    rw [List.foldl_cons, tally_keys_mem xs (tallyStep acc x) k, tallyStep_fst]
    by_cases hx : x ∈ acc.1
    · rw [if_pos hx]
      constructor
      · rintro (h | h)
        · exact Or.inl h
        · exact Or.inr (List.mem_cons_of_mem x h)
      · rintro (h | h)
        · exact Or.inl h
        · rcases List.mem_cons.mp h with rfl | h'
          · exact Or.inl hx
          · exact Or.inr h'
    · rw [if_neg hx]
      simp only [List.mem_append, List.mem_cons, List.not_mem_nil, or_false]
      tauto

theorem mem_momKeysAll_iff (f : Formula) (k : Literal) :
    k ∈ momKeysAll f ↔ k ∈ momPool f := by
  unfold momKeysAll momTally
  rw [tally_keys_mem]
  simp

theorem exists_clause_of_mem_momPool {f : Formula} {x : Literal}
    (h : x ∈ momPool f) : ∃ c ∈ f.clauses, x ∈ c := by
  unfold momPool at h
  rcases List.mem_flatten.mp h with ⟨c, hc, hx⟩
  unfold momMinClauses at hc
  cases hmin : minLen? f with
  | none => rw [hmin] at hc; simp at hc
  | some m =>
    rw [hmin] at hc
    exact ⟨c, (List.mem_filter.mp hc).1, hx⟩

theorem exists_clause_of_isMomResult {f : Formula} {l : Literal}
    (h : IsMomResult f l) : ∃ c ∈ f.clauses, l ∈ c :=
  exists_clause_of_mem_momPool ((mem_momKeysAll_iff f l).mp h.1)

/-! ### The recursive search driver -/

/-- Model of `solve` from `src/lib.rs`, instrumented: the result carries
the returned `SatResult`, the final statistics, and (as a ghost third
component used only by the recursion-depth claim) the maximum recursion
depth reached below this call. The control flow follows the source
exactly: bump the node counter, unit propagate, succeed on an empty
clause list, fail on an empty clause, otherwise branch on the picked
literal, true branch first with short-circuit. -/
def solveRec (p : Picker) (f : Formula) (s : State) : SatResult × State × Nat :=
  let s1 : State := { s with node_counter := s.node_counter + 1 }
  let gp := f.unit_propagate s1
  let g := gp.1
  let s2 := gp.2
  if h1 : g.clauses.isEmpty then (some g.assignments, s2, 0)
  else if h2 : (g.clauses.find? (fun c => c.isEmpty)).isSome then (none, s2, 0)
  else
    let literal := p.pick g
    let r1 := solveRec p (g.with_true literal).1 s2
    if r1.1.isSome then (r1.1, r1.2.1, r1.2.2 + 1)
    else
      let r2 := solveRec p (g.with_true (-literal)).1 r1.2.1
      (r2.1, r2.2.1, Nat.max r1.2.2 r2.2.2 + 1)
termination_by f.size
decreasing_by
  · have hne : g.clauses ≠ [] := by
      intro hh
      rw [hh] at h1
      simp at h1
    have hnoempty : ∀ c ∈ g.clauses, c ≠ [] := by
      intro c hc hceq
      apply h2
      rw [List.find?_isSome]
      exact ⟨c, hc, by simp [hceq]⟩
    obtain ⟨c, hc, hl⟩ := exists_clause_of_isMomResult (p.pick_valid g hne hnoempty)
    calc (g.with_true literal).1.size < g.size :=
          size_assign_true_lt ⟨c, hc, Or.inl hl⟩
      _ ≤ f.size := size_unit_propagate_le f s1
  · have hne : g.clauses ≠ [] := by
      intro hh
      rw [hh] at h1
      simp at h1
    have hnoempty : ∀ c ∈ g.clauses, c ≠ [] := by
      intro c hc hceq
      apply h2
      rw [List.find?_isSome]
      exact ⟨c, hc, by simp [hceq]⟩
    obtain ⟨c, hc, hl⟩ := exists_clause_of_isMomResult (p.pick_valid g hne hnoempty)
    calc (g.with_true (-literal)).1.size < g.size :=
          size_assign_true_lt ⟨c, hc, Or.inr (by rwa [neg_neg])⟩
      _ ≤ f.size := size_unit_propagate_le f s1

/-- Model of the public `solve` entry: result and final statistics. -/
def solve (p : Picker) (s : State) (f : Formula) : SatResult × State :=
  ((solveRec p f s).1, (solveRec p f s).2.1)

/-- Maximum recursion depth reached by `solve` (ghost instrumentation). -/
def solveDepth (p : Picker) (s : State) (f : Formula) : Nat :=
  (solveRec p f s).2.2

/-! ### Step equations for `solveRec` -/

theorem solveRec_eq_sat (p : Picker) (f : Formula) (s : State)
    (h : ((f.unit_propagate { s with node_counter := s.node_counter + 1 }).1).clauses.isEmpty
          = true) :
    solveRec p f s
      = (some ((f.unit_propagate { s with node_counter := s.node_counter + 1 }).1).assignments,
          (f.unit_propagate { s with node_counter := s.node_counter + 1 }).2, 0) := by
  unfold solveRec
  rw [dif_pos h]

theorem solveRec_eq_conflict (p : Picker) (f : Formula) (s : State)
    (h1 : ¬ ((f.unit_propagate { s with node_counter := s.node_counter + 1 }).1).clauses.isEmpty
            = true)
    (h2 : (((f.unit_propagate { s with node_counter := s.node_counter + 1 }).1).clauses.find?
            (fun c => c.isEmpty)).isSome = true) :
    solveRec p f s
      = (none, (f.unit_propagate { s with node_counter := s.node_counter + 1 }).2, 0) := by
  unfold solveRec
  rw [dif_neg h1, dif_pos h2]

theorem solveRec_eq_branch (p : Picker) (f : Formula) (s : State)
    (h1 : ¬ ((f.unit_propagate { s with node_counter := s.node_counter + 1 }).1).clauses.isEmpty
            = true)
    (h2 : ¬ (((f.unit_propagate { s with node_counter := s.node_counter + 1 }).1).clauses.find?
            (fun c => c.isEmpty)).isSome = true) :
    solveRec p f s
      = (let literal :=
           p.pick (f.unit_propagate { s with node_counter := s.node_counter + 1 }).1
         let r1 :=
           solveRec p
             (((f.unit_propagate { s with node_counter := s.node_counter + 1 }).1).with_true
               literal).1
             (f.unit_propagate { s with node_counter := s.node_counter + 1 }).2
         if r1.1.isSome then (r1.1, r1.2.1, r1.2.2 + 1)
         else
           let r2 :=
             solveRec p
               (((f.unit_propagate { s with node_counter := s.node_counter + 1 }).1).with_true
                 (-literal)).1
               r1.2.1
           (r2.1, r2.2.1, Nat.max r1.2.2 r2.2.2 + 1)) := by
  conv_lhs => unfold solveRec
  rw [dif_neg h1, dif_neg h2]

/-! ### Truth semantics of CNF formulas -/

/-- Value of a literal under a total assignment of the variables. -/
def litValue (σ : Nat → Bool) (l : Literal) : Bool :=
  if 0 < l then σ l.natAbs else !(σ l.natAbs)

/-- A clause is satisfied when some literal of it is true. -/
def clauseSat (σ : Nat → Bool) (c : Clause) : Bool :=
  c.any (fun l => litValue σ l)

/-- A clause list is satisfied when every clause is. -/
def satisfies (σ : Nat → Bool) (cs : List Clause) : Bool :=
  cs.all (fun c => clauseSat σ c)

/-- Satisfiability by some total truth assignment. -/
def Satisfiable (cs : List Clause) : Prop :=
  ∃ σ : Nat → Bool, satisfies σ cs = true

theorem satisfies_iff (σ : Nat → Bool) (cs : List Clause) :
    satisfies σ cs = true ↔ ∀ c ∈ cs, clauseSat σ c = true := by
  simp [satisfies]

theorem clauseSat_iff (σ : Nat → Bool) (c : Clause) :
    clauseSat σ c = true ↔ ∃ w ∈ c, litValue σ w = true := by
  simp [clauseSat]

theorem litValue_neg {l : Int} (h : l ≠ 0) (σ : Nat → Bool) :
    litValue σ (-l) = !(litValue σ l) := by
  unfold litValue
  rcases lt_trichotomy l 0 with hl | hl | hl
  · have h1 : (0 : Int) < -l := by omega
    have h2 : ¬ (0 : Int) < l := by omega
    rw [if_pos h1, if_neg h2, Int.natAbs_neg, Bool.not_not]
  · exact absurd hl h
  · have h1 : ¬ (0 : Int) < -l := by omega
    rw [if_neg h1, if_pos hl, Int.natAbs_neg]

theorem satisfiable_nil : Satisfiable [] :=
  ⟨fun _ => true, rfl⟩

theorem not_satisfiable_of_mem_empty {cs : List Clause} (h : [] ∈ cs) :
    ¬ Satisfiable cs := by
  rintro ⟨σ, hσ⟩
  have := (satisfies_iff σ cs).mp hσ [] h
  simp [clauseSat] at this

/-- Flip one variable of an assignment so that literal `l` becomes true. -/
def flipTo (σ : Nat → Bool) (l : Literal) : Nat → Bool :=
  fun v => if v = l.natAbs then decide (0 < l) else σ v

theorem litValue_flipTo_self (l : Int) (σ : Nat → Bool) :
    litValue (flipTo σ l) l = true := by
  have hv : flipTo σ l l.natAbs = decide (0 < l) := by
    unfold flipTo
    rw [if_pos rfl]
  unfold litValue
  by_cases hl : (0 : Int) < l
  · rw [if_pos hl, hv, decide_eq_true hl]
  · rw [if_neg hl, hv]
    simp [hl]

theorem litValue_flipTo_of_ne {w l : Literal} (h : w.natAbs ≠ l.natAbs)
    (σ : Nat → Bool) : litValue (flipTo σ l) w = litValue σ w := by
  unfold litValue flipTo
  rw [if_neg h]

/-! ### Satisfiability across one assignment step -/

theorem satisfies_assignClauses_iff {σ : Nat → Bool} {l : Literal}
    (h0 : litValue σ l = true) (hnz : l ≠ 0) (cs : List Clause) :
    satisfies σ (assignClauses l cs) = true ↔ satisfies σ cs = true := by
  have hneg : litValue σ (-l) = false := by
    rw [litValue_neg hnz, h0]
    rfl
  rw [satisfies_iff, satisfies_iff]
  constructor
  · intro hall c hcin
    by_cases hl : l ∈ c
    · exact (clauseSat_iff σ c).mpr ⟨l, hl, h0⟩
    · have hst := hall _ (stripNeg_mem_assignClauses hcin hl)
      rcases (clauseSat_iff σ _).mp hst with ⟨w, hw, hwv⟩
      exact (clauseSat_iff σ c).mpr ⟨w, mem_of_mem_stripNeg hw, hwv⟩
  · intro hall c' hc'
    rcases mem_assignClauses hc' with ⟨c, hcin, hno, rfl⟩
    rcases (clauseSat_iff σ c).mp (hall c hcin) with ⟨w, hw, hwv⟩
    have hwne : w ≠ -l := by
      rintro rfl
      rw [hwv] at hneg
      simp at hneg
    exact (clauseSat_iff σ _).mpr ⟨w, mem_stripNeg_of_ne hwne hw, hwv⟩

theorem satisfies_flipTo_of_assignClauses {σ : Nat → Bool} {l : Literal}
    {cs : List Clause} (hnd : ∀ c ∈ cs, c.Nodup)
    (h : satisfies σ (assignClauses l cs) = true) :
    satisfies (flipTo σ l) cs = true := by
  rw [satisfies_iff] at h ⊢
  intro c hcin
  by_cases hl : l ∈ c
  · exact (clauseSat_iff _ c).mpr ⟨l, hl, litValue_flipTo_self l σ⟩
  · have hst := h _ (stripNeg_mem_assignClauses hcin hl)
    rcases (clauseSat_iff σ _).mp hst with ⟨w, hw, hwv⟩
    have hwc : w ∈ c := mem_of_mem_stripNeg hw
    have hw1 : w ≠ l := fun he => hl (he ▸ hwc)
    have hw2 : w ≠ -l := by
      rintro rfl
      exact not_mem_stripNeg_of_nodup (hnd c hcin) hw
    have habs : w.natAbs ≠ l.natAbs := by
      intro he
      rcases Int.natAbs_eq_natAbs_iff.mp he with h' | h'
      · exact hw1 h'
      · exact hw2 h'
    refine (clauseSat_iff _ c).mpr ⟨w, hwc, ?_⟩
    rw [litValue_flipTo_of_ne habs, hwv]

theorem satisfiable_of_assignClauses {l : Literal} {cs : List Clause}
    (hnd : ∀ c ∈ cs, c.Nodup)
    (h : Satisfiable (assignClauses l cs)) : Satisfiable cs := by
  rcases h with ⟨σ, hσ⟩
  exact ⟨flipTo σ l, satisfies_flipTo_of_assignClauses hnd hσ⟩

theorem branch_of_satisfiable {l : Int} {cs : List Clause} (hnz : l ≠ 0)
    (h : Satisfiable cs) :
    Satisfiable (assignClauses l cs) ∨ Satisfiable (assignClauses (-l) cs) := by
  rcases h with ⟨σ, hσ⟩
  cases hv : litValue σ l with
  | true => exact Or.inl ⟨σ, (satisfies_assignClauses_iff hv hnz cs).mpr hσ⟩
  | false =>
    have hv' : litValue σ (-l) = true := by
      rw [litValue_neg hnz, hv]
      rfl
    have hnz' : -l ≠ 0 := by omega
    exact Or.inr ⟨σ, (satisfies_assignClauses_iff hv' hnz' cs).mpr hσ⟩

/-! ### Well-formedness preservation -/

theorem nodup_assignClauses {l : Literal} {cs : List Clause}
    (h : ∀ c ∈ cs, c.Nodup) : ∀ c' ∈ assignClauses l cs, c'.Nodup := by
  intro c' hc'
  rcases mem_assignClauses hc' with ⟨c, hcin, _, rfl⟩
  exact nodup_stripNeg (h c hcin)

theorem nonzero_assignClauses {l : Literal} {cs : List Clause}
    (h : ∀ c ∈ cs, (0 : Int) ∉ c) : ∀ c' ∈ assignClauses l cs, (0 : Int) ∉ c' := by
  intro c' hc'
  rcases mem_assignClauses hc' with ⟨c, hcin, _, rfl⟩
  exact fun hz => h c hcin (mem_of_mem_stripNeg hz)

/-! ### The literals forced by one propagation pass -/

theorem mem_dedupAdj : ∀ (l : List Literal) (x : Literal), x ∈ dedupAdj l ↔ x ∈ l
  | [], x => Iff.rfl
  | [a], x => Iff.rfl
  | a :: b :: rest, x => by
    unfold dedupAdj
    by_cases hab : a = b
    · rw [if_pos hab, mem_dedupAdj (b :: rest) x]
      subst hab
      simp
    · rw [if_neg hab]
      simp only [List.mem_cons]
      rw [show (x ∈ dedupAdj (b :: rest)) ↔ _ from mem_dedupAdj (b :: rest) x]
      simp

theorem mem_sortLits (l : List Literal) (x : Literal) :
    x ∈ sortLits l ↔ x ∈ l :=
  (List.perm_insertionSort (· ≤ ·) l).mem_iff

theorem mem_unitLits (f : Formula) (x : Literal) :
    x ∈ unitLits f ↔ [x] ∈ f.clauses := by
  unfold unitLits
  rw [List.mem_map]
  constructor
  · rintro ⟨u, hu, rfl⟩
    rcases List.mem_filter.mp hu with ⟨humem, hulen⟩
    rcases List.length_eq_one.mp (by simpa using hulen) with ⟨y, rfl⟩
    simpa using humem
  · intro hx
    exact ⟨[x], List.mem_filter.mpr ⟨hx, by simp⟩, rfl⟩

theorem mem_propagated_lits (f : Formula) (x : Literal) :
    x ∈ dedupAdj (sortLits (unitLits f)) ↔ [x] ∈ f.clauses := by
  rw [mem_dedupAdj, mem_sortLits, mem_unitLits]

/-! ### Satisfiability across one propagation pass -/

theorem satisfies_foldl_assign {σ : Nat → Bool} :
    ∀ (L : List Literal) (g : Formula),
      (∀ x ∈ L, litValue σ x = true ∧ x ≠ 0) →
      satisfies σ g.clauses = true →
      satisfies σ ((L.foldl (fun g l => g.assign_true l) g)).clauses = true
  | [], g, _, h => h
  | l :: L, g, hL, h => by
    rw [List.foldl_cons]
    obtain ⟨hv, hnz⟩ := hL l (List.mem_cons_self l L)
    refine satisfies_foldl_assign L (g.assign_true l)
      (fun x hx => hL x (List.mem_cons_of_mem l hx)) ?_
    rw [assign_true_clauses]
    exact (satisfies_assignClauses_iff hv hnz g.clauses).mpr h

theorem units_forced {σ : Nat → Bool} {f : Formula}
    (h : satisfies σ f.clauses = true) {x : Literal} (hx : [x] ∈ f.clauses) :
    litValue σ x = true := by
  have := (satisfies_iff σ f.clauses).mp h [x] hx
  rcases (clauseSat_iff σ [x]).mp this with ⟨w, hw, hwv⟩
  rcases List.mem_singleton.mp hw with rfl
  exact hwv

theorem satisfies_unit_propagate {σ : Nat → Bool} {f : Formula} (s : State)
    (hnz : ∀ c ∈ f.clauses, (0 : Int) ∉ c)
    (h : satisfies σ f.clauses = true) :
    satisfies σ ((f.unit_propagate s).1).clauses = true := by
  rw [unit_propagate_fst]
  refine satisfies_foldl_assign _ f (fun x hx => ?_) h
  have hxc : [x] ∈ f.clauses := (mem_propagated_lits f x).mp hx
  refine ⟨units_forced h hxc, fun hx0 => ?_⟩
  exact hnz [x] hxc (by rw [hx0]; exact List.mem_singleton_self 0)

theorem nodup_foldl_assign :
    ∀ (L : List Literal) (g : Formula), (∀ c ∈ g.clauses, c.Nodup) →
      ∀ c ∈ ((L.foldl (fun g l => g.assign_true l) g)).clauses, c.Nodup
  | [], g, h => h
  | l :: L, g, h => by
    rw [List.foldl_cons]
    refine nodup_foldl_assign L (g.assign_true l) ?_
    rw [assign_true_clauses]
    exact nodup_assignClauses h

theorem nonzero_foldl_assign :
    ∀ (L : List Literal) (g : Formula), (∀ c ∈ g.clauses, (0 : Int) ∉ c) →
      ∀ c ∈ ((L.foldl (fun g l => g.assign_true l) g)).clauses, (0 : Int) ∉ c
  | [], g, h => h
  | l :: L, g, h => by
    rw [List.foldl_cons]
    refine nonzero_foldl_assign L (g.assign_true l) ?_
    rw [assign_true_clauses]
    exact nonzero_assignClauses h

theorem satisfiable_of_foldl_assign :
    ∀ (L : List Literal) (g : Formula), (∀ c ∈ g.clauses, c.Nodup) →
      Satisfiable ((L.foldl (fun g l => g.assign_true l) g)).clauses →
      Satisfiable g.clauses
  | [], g, _, h => h
  | l :: L, g, hnd, h => by
    rw [List.foldl_cons] at h
    have h1 : Satisfiable ((g.assign_true l)).clauses :=
      satisfiable_of_foldl_assign L (g.assign_true l)
        (by rw [assign_true_clauses]; exact nodup_assignClauses hnd) h
    rw [assign_true_clauses] at h1
    exact satisfiable_of_assignClauses hnd h1

theorem satisfiable_of_unit_propagate {f : Formula} (s : State)
    (hnd : ∀ c ∈ f.clauses, c.Nodup)
    (h : Satisfiable ((f.unit_propagate s).1).clauses) :
    Satisfiable f.clauses := by
  rw [unit_propagate_fst] at h
  exact satisfiable_of_foldl_assign _ f hnd h

theorem satisfiable_unit_propagate_iff {f : Formula} (s : State)
    (hnd : ∀ c ∈ f.clauses, c.Nodup) (hnz : ∀ c ∈ f.clauses, (0 : Int) ∉ c) :
    Satisfiable ((f.unit_propagate s).1).clauses ↔ Satisfiable f.clauses := by
  constructor
  · exact satisfiable_of_unit_propagate s hnd
  · rintro ⟨σ, hσ⟩
    exact ⟨σ, satisfies_unit_propagate s hnz hσ⟩

/-! ### Main correctness of the search driver -/

theorem clauses_eq_nil_of_size_le_zero {f : Formula} (h : f.size ≤ 0) :
    f.clauses = [] := by
  rcases hcs : f.clauses with _ | ⟨c, cs⟩
  · rfl
  · exfalso
    rw [size_eq_clausesSize, hcs, clausesSize_cons] at h
    omega

theorem solveRec_isSome_iff (p : Picker) :
    ∀ (n : Nat) (f : Formula) (s : State), f.size ≤ n →
      (∀ c ∈ f.clauses, c.Nodup) → (∀ c ∈ f.clauses, (0 : Int) ∉ c) →
      ((solveRec p f s).1.isSome = true ↔ Satisfiable f.clauses) := by
  intro n
  induction n with
  | zero =>
    intro f s hsz hnd hnz
    have hcl : f.clauses = [] := clauses_eq_nil_of_size_le_zero hsz
    have hg : (f.unit_propagate { s with node_counter := s.node_counter + 1 }).1 = f := by
      rw [unit_propagate_fst]
      have hu : unitLits f = [] := by
        unfold unitLits
        rw [hcl]
        rfl
      rw [hu]
      rfl
    rw [solveRec_eq_sat p f s (by rw [hg, hcl]; rfl)]
    rw [hcl]
    exact iff_of_true (by simp) satisfiable_nil
  | succ n ih =>
    intro f s hsz hnd hnz
    have hgnd : ∀ c ∈ ((f.unit_propagate
        { s with node_counter := s.node_counter + 1 }).1).clauses, c.Nodup := by
      rw [unit_propagate_fst]
      exact nodup_foldl_assign _ f hnd
    have hgnz : ∀ c ∈ ((f.unit_propagate
        { s with node_counter := s.node_counter + 1 }).1).clauses, (0 : Int) ∉ c := by
      rw [unit_propagate_fst]
      exact nonzero_foldl_assign _ f hnz
    have hsat : Satisfiable ((f.unit_propagate
          { s with node_counter := s.node_counter + 1 }).1).clauses
        ↔ Satisfiable f.clauses :=
      satisfiable_unit_propagate_iff _ hnd hnz
    by_cases h1 : ((f.unit_propagate
        { s with node_counter := s.node_counter + 1 }).1).clauses.isEmpty = true
    · rw [solveRec_eq_sat p f s h1]
      have hemp : ((f.unit_propagate
          { s with node_counter := s.node_counter + 1 }).1).clauses = [] :=
        List.isEmpty_iff.mp h1
      refine iff_of_true (by simp) (hsat.mp ?_)
      rw [hemp]
      exact satisfiable_nil
    · by_cases h2 : (((f.unit_propagate
          { s with node_counter := s.node_counter + 1 }).1).clauses.find?
            (fun c => c.isEmpty)).isSome = true
      · rw [solveRec_eq_conflict p f s h1 h2]
        have hmem : [] ∈ ((f.unit_propagate
            { s with node_counter := s.node_counter + 1 }).1).clauses := by
          rcases List.find?_isSome.mp h2 with ⟨c, hc, hce⟩
          rwa [List.isEmpty_iff.mp hce] at hc
        refine iff_of_false (by simp) (fun hs => ?_)
        exact not_satisfiable_of_mem_empty hmem (hsat.mpr hs)
      · rw [solveRec_eq_branch p f s h1 h2]
        simp only []
        set g := (f.unit_propagate { s with node_counter := s.node_counter + 1 }).1
          with hgdef
        set s2 := (f.unit_propagate { s with node_counter := s.node_counter + 1 }).2
          with hs2def
        set l := p.pick g with hldef
        have hwt1 : (g.with_true l).1 = g.assign_true l := rfl
        have hwt2 : (g.with_true (-l)).1 = g.assign_true (-l) := rfl
        rw [hwt1, hwt2]
        have hne : g.clauses ≠ [] := fun hh => h1 (by rw [hh]; rfl)
        have hnoempty : ∀ c ∈ g.clauses, c ≠ [] := by
          intro c hc hce
          apply h2
          exact List.find?_isSome.mpr ⟨c, hc, by rw [hce]; rfl⟩
        have hmom := p.pick_valid g hne hnoempty
        obtain ⟨c0, hc0, hl0mem⟩ := exists_clause_of_isMomResult hmom
        have hlnz : l ≠ 0 := fun h0 => hgnz c0 hc0 (h0 ▸ hl0mem)
        have hszg : g.size ≤ f.size := size_unit_propagate_le f _
        have hlt1 : (g.assign_true l).size < g.size :=
          size_assign_true_lt ⟨c0, hc0, Or.inl hl0mem⟩
        have hlt2 : (g.assign_true (-l)).size < g.size :=
          size_assign_true_lt ⟨c0, hc0, Or.inr (by rwa [neg_neg])⟩
        have ih1 := ih (g.assign_true l) s2 (by omega)
          (by rw [assign_true_clauses]; exact nodup_assignClauses hgnd)
          (by rw [assign_true_clauses]; exact nonzero_assignClauses hgnz)
        by_cases hr1 : (solveRec p (g.assign_true l) s2).1.isSome = true
        · rw [if_pos hr1]
          refine iff_of_true hr1 (hsat.mp ?_)
          have hS := ih1.mp hr1
          rw [assign_true_clauses] at hS
          exact satisfiable_of_assignClauses hgnd hS
        · rw [if_neg hr1]
          have ih2 := ih (g.assign_true (-l))
            (solveRec p (g.assign_true l) s2).2.1 (by omega)
            (by rw [assign_true_clauses]; exact nodup_assignClauses hgnd)
            (by rw [assign_true_clauses]; exact nonzero_assignClauses hgnz)
          constructor
          · intro hs
            have hS := ih2.mp hs
            rw [assign_true_clauses] at hS
            exact hsat.mp (satisfiable_of_assignClauses hgnd hS)
          · intro hf
            rcases branch_of_satisfiable hlnz (hsat.mpr hf) with hS | hS
            · exact absurd (ih1.mpr (by rw [assign_true_clauses]; exact hS)) hr1
            · exact ih2.mpr (by rw [assign_true_clauses]; exact hS)

/-! ### Validity of the deterministic `mom` model -/

theorem foldl_maxBy_spec :
    ∀ (rest : List (Literal × Nat)) (p0 : Literal × Nat),
      (rest.foldl (fun best q => if best.2 ≤ q.2 then q else best) p0) ∈ p0 :: rest ∧
      ∀ q ∈ p0 :: rest,
        q.2 ≤ (rest.foldl (fun best q => if best.2 ≤ q.2 then q else best) p0).2
  | [], p0 => by
    constructor
    · simp
    · intro q hq
      rcases List.mem_singleton.mp hq with rfl
      exact Nat.le_refl _
  | q0 :: rest, p0 => by
    rw [List.foldl_cons]
    obtain ⟨ihmem, ihle⟩ :=
      foldl_maxBy_spec rest (if p0.2 ≤ q0.2 then q0 else p0)
    constructor
    · rcases List.mem_cons.mp ihmem with he | hr
      · rw [he]
        by_cases hc : p0.2 ≤ q0.2
        · rw [if_pos hc]
          exact List.mem_cons_of_mem _ (List.mem_cons_self _ _)
        · rw [if_neg hc]
          exact List.mem_cons_self _ _
      · exact List.mem_cons_of_mem _ (List.mem_cons_of_mem _ hr)
    · intro q hq
      rcases List.mem_cons.mp hq with rfl | hq'
      · refine Nat.le_trans ?_ (ihle _ (List.mem_cons_self _ _))
        by_cases hc : q.2 ≤ q0.2
        · rw [if_pos hc]
          exact hc
        · rw [if_neg hc]
      · rcases List.mem_cons.mp hq' with rfl | hq''
        · refine Nat.le_trans ?_ (ihle _ (List.mem_cons_self _ _))
          by_cases hc : p0.2 ≤ q.2
          · rw [if_pos hc]
          · rw [if_neg hc]
            omega
        · exact ihle q (List.mem_cons_of_mem _ hq'')

theorem maxByVal_spec {ps : List (Literal × Nat)} {m : Literal × Nat}
    (h : maxByVal ps = some m) : m ∈ ps ∧ ∀ q ∈ ps, q.2 ≤ m.2 := by
  cases ps with
  | nil => simp [maxByVal] at h
  | cons p0 rest =>
    unfold maxByVal at h
    obtain ⟨hm, hle⟩ := foldl_maxBy_spec rest p0
    cases h
    exact ⟨hm, hle⟩

theorem maxByVal_isSome {ps : List (Literal × Nat)} (h : ps ≠ []) :
    (maxByVal ps).isSome = true := by
  cases ps with
  | nil => exact absurd rfl h
  | cons p0 rest => rfl

theorem minLen?_isSome {f : Formula} (h : f.clauses ≠ []) :
    (minLen? f).isSome = true := by
  unfold minLen?
  rw [Option.isSome_iff_ne_none]
  intro hn
  rw [List.min?_eq_none_iff, List.map_eq_nil_iff] at hn
  exact h hn

theorem momKeysAll_ne_nil {f : Formula} (h1 : f.clauses ≠ [])
    (h2 : ∀ c ∈ f.clauses, c ≠ []) : momKeysAll f ≠ [] := by
  cases hm : minLen? f with
  | none =>
    have := minLen?_isSome h1
    rw [hm] at this
    simp at this
  | some m =>
    have hmem : m ∈ f.clauses.map List.length := by
      have := List.min?_mem (fun a b : Nat => min_choice a b) hm
      simpa [minLen?] using this
    rcases List.mem_map.mp hmem with ⟨c0, hc0, hlen⟩
    have hc0ne : c0 ≠ [] := h2 c0 hc0
    rcases List.exists_mem_of_ne_nil c0 hc0ne with ⟨x, hx⟩
    have hpool : x ∈ momPool f := by
      unfold momPool momMinClauses
      rw [hm]
      exact List.mem_flatten_of_mem
        (List.mem_filter.mpr ⟨hc0, by simp [hlen]⟩) hx
    have hkeys : x ∈ momKeysAll f := (mem_momKeysAll_iff f x).mpr hpool
    exact List.ne_nil_of_mem hkeys

theorem momStep_isSome {f : Formula} (h1 : f.clauses ≠ [])
    (h2 : ∀ c ∈ f.clauses, c ≠ []) : (f.momStep).isSome = true := by
  unfold Formula.momStep
  rw [Option.isSome_map']
  apply maxByVal_isSome
  intro hn
  rw [List.map_eq_nil_iff] at hn
  exact momKeysAll_ne_nil h1 h2 hn

theorem isMomResult_mom {f : Formula} (h1 : f.clauses ≠ [])
    (h2 : ∀ c ∈ f.clauses, c ≠ []) : IsMomResult f (f.mom) := by
  have hs := momStep_isSome h1 h2
  unfold Formula.momStep at hs
  rw [Option.isSome_map'] at hs
  rcases Option.isSome_iff_exists.mp hs with ⟨m, hm⟩
  obtain ⟨hmem, hle⟩ := maxByVal_spec hm
  rcases List.mem_map.mp hmem with ⟨k, hk, rfl⟩
  have hmomv : f.mom = k := by
    unfold Formula.mom Formula.momStep
    rw [hm]
    rfl
  rw [hmomv]
  refine ⟨hk, fun k' hk' => ?_⟩
  have := hle (k', momCount f k') (List.mem_map_of_mem _ hk')
  exact this

/-- The deterministic branching heuristic: `Formula.mom` with the
insertion-order model of the hash iteration. -/
def momPicker : Picker where
  pick := Formula.mom
  pick_valid := fun _ h1 h2 => isMomResult_mom h1 h2

/-! ### Persistence of an empty clause -/

theorem mem_empty_assignClauses {l : Literal} {cs : List Clause}
    (h : [] ∈ cs) : [] ∈ assignClauses l cs := by
  have := stripNeg_mem_assignClauses (l := l) h (by simp)
  simpa [stripNeg] using this

theorem mem_empty_foldl_assign :
    ∀ (L : List Literal) (g : Formula), [] ∈ g.clauses →
      [] ∈ ((L.foldl (fun g l => g.assign_true l) g)).clauses
  | [], _, h => h
  | l :: L, g, h => by
    rw [List.foldl_cons]
    exact mem_empty_foldl_assign L (g.assign_true l)
      (by rw [assign_true_clauses]; exact mem_empty_assignClauses h)

theorem mem_empty_unit_propagate {f : Formula} (s : State) (h : [] ∈ f.clauses) :
    [] ∈ ((f.unit_propagate s).1).clauses := by
  rw [unit_propagate_fst]
  exact mem_empty_foldl_assign _ f h

theorem solveRec_of_mem_empty (p : Picker) {f : Formula} (s : State)
    (h : [] ∈ f.clauses) :
    (solveRec p f s).1 = none ∧
      (solveRec p f s).2.1.node_counter = s.node_counter + 1 := by
  have hpe : [] ∈ ((f.unit_propagate
      { s with node_counter := s.node_counter + 1 }).1).clauses :=
    mem_empty_unit_propagate _ h
  have h1 : ¬ ((f.unit_propagate
      { s with node_counter := s.node_counter + 1 }).1).clauses.isEmpty = true := by
    intro hi
    rw [List.isEmpty_iff.mp hi] at hpe
    exact List.not_mem_nil _ hpe
  have h2 : (((f.unit_propagate
      { s with node_counter := s.node_counter + 1 }).1).clauses.find?
        (fun c => c.isEmpty)).isSome = true :=
    List.find?_isSome.mpr ⟨[], hpe, rfl⟩
  rw [solveRec_eq_conflict p f s h1 h2]
  refine ⟨rfl, ?_⟩
  rw [unit_propagate_snd]

/-- C1 (amended): on formulas whose clauses contain no duplicate literals
and no zero literal, `solve` on a fresh state answers `Some` exactly when
some total truth assignment satisfies every clause. This holds for every
valid branching heuristic, hence for every hash iteration order of
`Formula::mom`. -/
theorem solve_isSome_iff_satisfiable (p : Picker) (F : List Clause)
    (hnd : ∀ c ∈ F, c.Nodup) (hnz : ∀ c ∈ F, (0 : Int) ∉ c) :
    ((solve p ⟨0, 0⟩ ⟨[], F⟩).1.isSome = true ↔ Satisfiable F) := by
  unfold solve
  exact solveRec_isSome_iff p (Formula.mk [] F).size ⟨[], F⟩ ⟨0, 0⟩
    (Nat.le_refl _) hnd hnz

/-- Witness for the amended C1 at the concrete formula `[[1]]`. -/
theorem solve_isSome_iff_satisfiable_witness :
    (∀ c ∈ [[(1 : Int)]], c.Nodup) ∧ (∀ c ∈ [[(1 : Int)]], (0 : Int) ∉ c) ∧
      ((solve momPicker ⟨0, 0⟩ ⟨[], [[(1 : Int)]]⟩).1.isSome = true
        ↔ Satisfiable [[(1 : Int)]]) :=
  ⟨by decide, by decide,
    solve_isSome_iff_satisfiable momPicker [[(1 : Int)]] (by decide) (by decide)⟩

/-- C1 (counterexample): on the formula `[[-1,-1],[1]]`, which is
unsatisfiable, `solve` answers `Some`: assigning `1` true strips only the
first of the two duplicate `-1` occurrences, so the clause `[-1,-1]`
degenerates to the unit `[-1]` instead of the empty clause, and the
solver then satisfies it by also assigning `-1` true. -/
theorem solve_some_on_unsat_duplicates :
    (solve momPicker ⟨0, 0⟩ ⟨[], [[-1, -1], [1]]⟩).1.isSome = true ∧
      ¬ Satisfiable [[-1, -1], [1]] := by
  constructor
  · have hchild : solveRec momPicker ⟨[1, -1], []⟩ ⟨1, 1⟩ = (some [1, -1], ⟨1, 2⟩, 0) := by
      rw [solveRec_eq_sat momPicker ⟨[1, -1], []⟩ ⟨1, 1⟩ (by decide)]
      decide
    have harg : (((Formula.mk [] [[-1, -1], [1]]).unit_propagate
        { unit_propagation_counter := (⟨0, 0⟩ : State).unit_propagation_counter,
          node_counter := (⟨0, 0⟩ : State).node_counter + 1 }).1.with_true
          (momPicker.pick ((Formula.mk [] [[-1, -1], [1]]).unit_propagate
            { unit_propagation_counter := (⟨0, 0⟩ : State).unit_propagation_counter,
              node_counter := (⟨0, 0⟩ : State).node_counter + 1 }).1)).1
        = Formula.mk [1, -1] [] := by decide
    have hst : ((Formula.mk [] [[-1, -1], [1]]).unit_propagate
        { unit_propagation_counter := (⟨0, 0⟩ : State).unit_propagation_counter,
          node_counter := (⟨0, 0⟩ : State).node_counter + 1 }).2
        = (⟨1, 1⟩ : State) := by decide
    unfold solve
    rw [solveRec_eq_branch momPicker ⟨[], [[-1, -1], [1]]⟩ ⟨0, 0⟩ (by decide) (by decide)]
    simp only []
    rw [harg, hst, hchild]
    decide
  · rintro ⟨σ, hσ⟩
    have h1 : litValue σ 1 = true :=
      units_forced (f := ⟨[], [[-1, -1], [1]]⟩) hσ (by decide)
    have h2 := (satisfies_iff σ _).mp hσ [-1, -1] (by decide)
    rcases (clauseSat_iff σ _).mp h2 with ⟨w, hw, hv⟩
    have hw' : w = -1 := by
      rcases List.mem_cons.mp hw with rfl | hw2
      · rfl
      · rcases List.mem_cons.mp hw2 with rfl | hw3
        · rfl
        · exact absurd hw3 (List.not_mem_nil w)
    subst hw'
    have : litValue σ (-1) = !(litValue σ 1) := litValue_neg (by decide) σ
    rw [h1] at this
    rw [this] at hv
    simp at hv

/-- C7: totality of the solver core. A formula with no clauses is
answered `Some` with its own trail (in particular `Some []` on a fresh
formula); a formula containing an empty clause is answered `None` by the
very first invocation (the node counter rises by exactly one, so no
recursion happened); and both `unwrap`s inside `Formula::mom` succeed
whenever the clause list is nonempty and free of empty clauses, which is
exactly what `solve` checks before invoking it. -/
theorem solve_total_behaviour (p : Picker) (s : State) (f : Formula)
    (a : List Literal) :
    ((solve p s ⟨a, []⟩).1 = some a) ∧
    ([] ∈ f.clauses →
      (solve p s f).1 = none ∧
      (solve p s f).2.node_counter = s.node_counter + 1) ∧
    (f.clauses ≠ [] → [] ∉ f.clauses →
      ((minLen? f).isSome = true ∧ (f.momStep).isSome = true)) := by
  refine ⟨?_, ?_, ?_⟩
  · have hg : ((⟨a, []⟩ : Formula).unit_propagate
        { s with node_counter := s.node_counter + 1 }).1 = ⟨a, []⟩ := rfl
    unfold solve
    rw [solveRec_eq_sat p ⟨a, []⟩ s (by rw [hg]; rfl)]
    rw [hg]
  · intro hmem
    obtain ⟨h1, h2⟩ := solveRec_of_mem_empty p s hmem
    exact ⟨h1, h2⟩
  · intro hne hnomem
    have hnoempty : ∀ c ∈ f.clauses, c ≠ [] := by
      intro c hc hce
      exact hnomem (hce ▸ hc)
    exact ⟨minLen?_isSome hne, momStep_isSome hne hnoempty⟩

/-- Witness for C7 at concrete inputs: an empty clause list, a formula
containing an empty clause, and a formula on which `mom` is safe. -/
theorem solve_total_behaviour_witness :
    ((solve momPicker ⟨0, 0⟩ ⟨[2], []⟩).1 = some [2]) ∧
    ((solve momPicker ⟨0, 0⟩ ⟨[], [[], [1]]⟩).1 = none ∧
      (solve momPicker ⟨0, 0⟩ ⟨[], [[], [1]]⟩).2.node_counter = 0 + 1) ∧
    (((minLen? ⟨[], [[1]]⟩).isSome = true) ∧
      ((Formula.momStep ⟨[], [[1]]⟩).isSome = true)) :=
  ⟨(solve_total_behaviour momPicker ⟨0, 0⟩ ⟨[], [[1]]⟩ [2]).1,
   (solve_total_behaviour momPicker ⟨0, 0⟩ ⟨[], [[], [1]]⟩ [2]).2.1 (by decide),
   (solve_total_behaviour momPicker ⟨0, 0⟩ ⟨[], [[1]]⟩ [2]).2.2 (by decide)
     (by decide)⟩

/-! ### The variables of a formula and the recursion-depth bound -/

/-- Set of variables occurring in a clause list. -/
def varsOf (cs : List Clause) : Finset Nat :=
  (cs.flatten.map Int.natAbs).toFinset

/-- Number of distinct variables occurring in the clauses of a formula. -/
def numVars (f : Formula) : Nat :=
  ((f.clauses.flatten.map Int.natAbs)).dedup.length

theorem numVars_eq_card (f : Formula) : numVars f = (varsOf f.clauses).card := by
  unfold numVars varsOf
  rw [List.card_toFinset]

theorem mem_varsOf {cs : List Clause} {v : Nat} :
    v ∈ varsOf cs ↔ ∃ c ∈ cs, ∃ w ∈ c, w.natAbs = v := by
  unfold varsOf
  rw [List.mem_toFinset, List.mem_map]
  constructor
  · rintro ⟨w, hw, rfl⟩
    rcases List.mem_flatten.mp hw with ⟨c, hc, hwc⟩
    exact ⟨c, hc, w, hwc, rfl⟩
  · rintro ⟨c, hc, w, hwc, rfl⟩
    exact ⟨w, List.mem_flatten_of_mem hc hwc, rfl⟩

theorem varsOf_assignClauses_subset (l : Literal) (cs : List Clause) :
    varsOf (assignClauses l cs) ⊆ varsOf cs := by
  intro v hv
  rcases mem_varsOf.mp hv with ⟨c', hc', w, hw, rfl⟩
  rcases mem_assignClauses hc' with ⟨c, hc, _, rfl⟩
  exact mem_varsOf.mpr ⟨c, hc, w, mem_of_mem_stripNeg hw, rfl⟩

theorem varsOf_assignClauses_subset_erase {l : Literal} {cs : List Clause}
    (hnd : ∀ c ∈ cs, c.Nodup) :
    varsOf (assignClauses l cs) ⊆ (varsOf cs).erase l.natAbs := by
  intro v hv
  rcases mem_varsOf.mp hv with ⟨c', hc', w, hw, rfl⟩
  rcases mem_assignClauses hc' with ⟨c, hc, hlno, rfl⟩
  have hwc : w ∈ c := mem_of_mem_stripNeg hw
  have hw1 : w ≠ l := fun he => hlno (he ▸ hwc)
  have hw2 : w ≠ -l := by
    rintro rfl
    exact not_mem_stripNeg_of_nodup (hnd c hc) hw
  have habs : w.natAbs ≠ l.natAbs := by
    intro he
    rcases Int.natAbs_eq_natAbs_iff.mp he with h' | h'
    · exact hw1 h'
    · exact hw2 h'
  exact Finset.mem_erase.mpr ⟨habs, mem_varsOf.mpr ⟨c, hc, w, hwc, rfl⟩⟩

theorem varsOf_foldl_assign_subset :
    ∀ (L : List Literal) (g : Formula),
      varsOf ((L.foldl (fun g l => g.assign_true l) g)).clauses ⊆ varsOf g.clauses
  | [], _ => fun _ hv => hv
  | l :: L, g => by
    rw [List.foldl_cons]
    refine subset_trans (varsOf_foldl_assign_subset L (g.assign_true l)) ?_
    rw [assign_true_clauses]
    exact varsOf_assignClauses_subset l g.clauses

theorem varsOf_unit_propagate_subset (f : Formula) (s : State) :
    varsOf ((f.unit_propagate s).1).clauses ⊆ varsOf f.clauses := by
  rw [unit_propagate_fst]
  exact varsOf_foldl_assign_subset _ f

theorem card_varsOf_assign_lt {l : Literal} {g : Formula}
    (hnd : ∀ c ∈ g.clauses, c.Nodup) {c0 : Clause} (hc0 : c0 ∈ g.clauses)
    (hl : l ∈ c0 ∨ -l ∈ c0) :
    (varsOf (g.assign_true l).clauses).card < (varsOf g.clauses).card := by
  have hvmem : l.natAbs ∈ varsOf g.clauses := by
    rcases hl with h | h
    · exact mem_varsOf.mpr ⟨c0, hc0, l, h, rfl⟩
    · exact mem_varsOf.mpr ⟨c0, hc0, -l, h, Int.natAbs_neg l⟩
  calc (varsOf (g.assign_true l).clauses).card
      ≤ ((varsOf g.clauses).erase l.natAbs).card := by
        apply Finset.card_le_card
        rw [assign_true_clauses]
        exact varsOf_assignClauses_subset_erase hnd
    _ < (varsOf g.clauses).card := Finset.card_erase_lt_of_mem hvmem

theorem solveRec_depth_le (p : Picker) :
    ∀ (n : Nat) (f : Formula) (s : State), f.size ≤ n →
      (∀ c ∈ f.clauses, c.Nodup) →
      (solveRec p f s).2.2 ≤ (varsOf f.clauses).card := by
  intro n
  induction n with
  | zero =>
    intro f s hsz hnd
    have hcl : f.clauses = [] := clauses_eq_nil_of_size_le_zero hsz
    have hg : (f.unit_propagate { s with node_counter := s.node_counter + 1 }).1 = f := by
      rw [unit_propagate_fst]
      have hu : unitLits f = [] := by
        unfold unitLits
        rw [hcl]
        rfl
      rw [hu]
      rfl
    rw [solveRec_eq_sat p f s (by rw [hg, hcl]; rfl)]
    exact Nat.zero_le _
  | succ n ih =>
    intro f s hsz hnd
    have hgnd : ∀ c ∈ ((f.unit_propagate
        { s with node_counter := s.node_counter + 1 }).1).clauses, c.Nodup := by
      rw [unit_propagate_fst]
      exact nodup_foldl_assign _ f hnd
    have hvle : (varsOf ((f.unit_propagate
          { s with node_counter := s.node_counter + 1 }).1).clauses).card
        ≤ (varsOf f.clauses).card :=
      Finset.card_le_card (varsOf_unit_propagate_subset f _)
    by_cases h1 : ((f.unit_propagate
        { s with node_counter := s.node_counter + 1 }).1).clauses.isEmpty = true
    · rw [solveRec_eq_sat p f s h1]
      exact Nat.zero_le _
    · by_cases h2 : (((f.unit_propagate
          { s with node_counter := s.node_counter + 1 }).1).clauses.find?
            (fun c => c.isEmpty)).isSome = true
      · rw [solveRec_eq_conflict p f s h1 h2]
        exact Nat.zero_le _
      · rw [solveRec_eq_branch p f s h1 h2]
        simp only []
        set g := (f.unit_propagate { s with node_counter := s.node_counter + 1 }).1
          with hgdef
        set s2 := (f.unit_propagate { s with node_counter := s.node_counter + 1 }).2
          with hs2def
        set l := p.pick g with hldef
        have hwt1 : (g.with_true l).1 = g.assign_true l := rfl
        have hwt2 : (g.with_true (-l)).1 = g.assign_true (-l) := rfl
        rw [hwt1, hwt2]
        have hne : g.clauses ≠ [] := fun hh => h1 (by rw [hh]; rfl)
        have hnoempty : ∀ c ∈ g.clauses, c ≠ [] := by
          intro c hc hce
          apply h2
          exact List.find?_isSome.mpr ⟨c, hc, by rw [hce]; rfl⟩
        obtain ⟨c0, hc0, hl0mem⟩ :=
          exists_clause_of_isMomResult (p.pick_valid g hne hnoempty)
        have hszg : g.size ≤ f.size := size_unit_propagate_le f _
        have hlt1 : (g.assign_true l).size < g.size :=
          size_assign_true_lt ⟨c0, hc0, Or.inl hl0mem⟩
        have hlt2 : (g.assign_true (-l)).size < g.size :=
          size_assign_true_lt ⟨c0, hc0, Or.inr (by rwa [neg_neg])⟩
        have hd1 := ih (g.assign_true l) s2 (by omega)
          (by rw [assign_true_clauses]; exact nodup_assignClauses hgnd)
        have hv1 : (varsOf (g.assign_true l).clauses).card < (varsOf g.clauses).card :=
          card_varsOf_assign_lt hgnd hc0 (Or.inl hl0mem)
        have hv2 : (varsOf (g.assign_true (-l)).clauses).card
            < (varsOf g.clauses).card :=
          card_varsOf_assign_lt hgnd hc0 (Or.inr (by rwa [neg_neg]))
        by_cases hr1 : (solveRec p (g.assign_true l) s2).1.isSome = true
        · rw [if_pos hr1]
          show (solveRec p (g.assign_true l) s2).2.2 + 1 ≤ (varsOf f.clauses).card
          omega
        · rw [if_neg hr1]
          have hd2 := ih (g.assign_true (-l))
            (solveRec p (g.assign_true l) s2).2.1 (by omega)
            (by rw [assign_true_clauses]; exact nodup_assignClauses hgnd)
          show Nat.max (solveRec p (g.assign_true l) s2).2.2
              (solveRec p (g.assign_true (-l))
                (solveRec p (g.assign_true l) s2).2.1).2.2 + 1
            ≤ (varsOf f.clauses).card
          have hb1 : (solveRec p (g.assign_true l) s2).2.2
              < (varsOf g.clauses).card := by omega
          have hb2 : (solveRec p (g.assign_true (-l))
              (solveRec p (g.assign_true l) s2).2.1).2.2
              < (varsOf g.clauses).card := by omega
          have hmax := Nat.max_lt.mpr ⟨hb1, hb2⟩
          exact Nat.le_trans (Nat.succ_le_of_lt hmax) hvle

/-- C8 (amended): for every valid branching heuristic, every starting
state, and every formula whose clauses contain no duplicate literals,
the maximum recursion depth of `solve` is bounded by the number of
distinct variables occurring in the formula. (Termination itself holds
unconditionally: `solveRec` is defined by well-founded recursion on
`Formula.size`.) -/
theorem solveDepth_le_numVars (p : Picker) (s : State) (f : Formula)
    (hnd : ∀ c ∈ f.clauses, c.Nodup) : solveDepth p s f ≤ numVars f := by
  rw [numVars_eq_card]
  exact solveRec_depth_le p f.size f s (Nat.le_refl _) hnd

/-- Witness for the amended C8 at the concrete formula `[[1,2],[-1,2]]`. -/
theorem solveDepth_le_numVars_witness :
    (∀ c ∈ (Formula.mk [] [[1, 2], [-1, 2]]).clauses, c.Nodup) ∧
      solveDepth momPicker ⟨0, 0⟩ ⟨[], [[1, 2], [-1, 2]]⟩
        ≤ numVars ⟨[], [[1, 2], [-1, 2]]⟩ :=
  ⟨by decide, solveDepth_le_numVars momPicker ⟨0, 0⟩ ⟨[], [[1, 2], [-1, 2]]⟩ (by decide)⟩

/-- C8 (counterexample): the formula `[[1,1],[-1,-1,-1]]` mentions only
the single variable `1`, yet the recursion reaches depth `2`: stripping
duplicates one occurrence at a time makes the solver branch on the same
variable at two consecutive levels. -/
theorem solveDepth_exceeds_numVars :
    solveDepth momPicker ⟨0, 0⟩ ⟨[], [[1, 1], [-1, -1, -1]]⟩ = 2 ∧
      numVars ⟨[], [[1, 1], [-1, -1, -1]]⟩ = 1 := by
  have hgrand : solveRec momPicker ⟨[1, -1], []⟩ ⟨0, 2⟩ = (some [1, -1], ⟨0, 3⟩, 0) := by
    rw [solveRec_eq_sat momPicker ⟨[1, -1], []⟩ ⟨0, 2⟩ (by decide)]
    decide
  have hchild : solveRec momPicker ⟨[1], [[-1, -1]]⟩ ⟨0, 1⟩
      = (some [1, -1], ⟨0, 3⟩, 1) := by
    rw [solveRec_eq_branch momPicker ⟨[1], [[-1, -1]]⟩ ⟨0, 1⟩ (by decide) (by decide)]
    simp only []
    have harg : (((Formula.mk [1] [[-1, -1]]).unit_propagate
        { unit_propagation_counter := (⟨0, 1⟩ : State).unit_propagation_counter,
          node_counter := (⟨0, 1⟩ : State).node_counter + 1 }).1.with_true
          (momPicker.pick ((Formula.mk [1] [[-1, -1]]).unit_propagate
            { unit_propagation_counter := (⟨0, 1⟩ : State).unit_propagation_counter,
              node_counter := (⟨0, 1⟩ : State).node_counter + 1 }).1)).1
        = Formula.mk [1, -1] [] := by decide
    have hst : ((Formula.mk [1] [[-1, -1]]).unit_propagate
        { unit_propagation_counter := (⟨0, 1⟩ : State).unit_propagation_counter,
          node_counter := (⟨0, 1⟩ : State).node_counter + 1 }).2
        = (⟨0, 2⟩ : State) := by decide
    rw [harg, hst, hgrand]
    decide
  have hroot : solveRec momPicker ⟨[], [[1, 1], [-1, -1, -1]]⟩ ⟨0, 0⟩
      = (some [1, -1], ⟨0, 3⟩, 2) := by
    rw [solveRec_eq_branch momPicker ⟨[], [[1, 1], [-1, -1, -1]]⟩ ⟨0, 0⟩
      (by decide) (by decide)]
    simp only []
    have harg : (((Formula.mk [] [[1, 1], [-1, -1, -1]]).unit_propagate
        { unit_propagation_counter := (⟨0, 0⟩ : State).unit_propagation_counter,
          node_counter := (⟨0, 0⟩ : State).node_counter + 1 }).1.with_true
          (momPicker.pick ((Formula.mk [] [[1, 1], [-1, -1, -1]]).unit_propagate
            { unit_propagation_counter := (⟨0, 0⟩ : State).unit_propagation_counter,
              node_counter := (⟨0, 0⟩ : State).node_counter + 1 }).1)).1
        = Formula.mk [1] [[-1, -1]] := by decide
    have hst : ((Formula.mk [] [[1, 1], [-1, -1, -1]]).unit_propagate
        { unit_propagation_counter := (⟨0, 0⟩ : State).unit_propagation_counter,
          node_counter := (⟨0, 0⟩ : State).node_counter + 1 }).2
        = (⟨0, 1⟩ : State) := by decide
    rw [harg, hst, hchild]
    decide
  constructor
  · unfold solveDepth
    rw [hroot]
  · decide

/-- C2 (counterexample): assigning `1` in the formula `[[-1,-1,2]]`
leaves a surviving clause that still contains `-1`, because only the
first of the duplicate `-1` occurrences is removed. -/
theorem assign_true_leaves_duplicate_neg :
    ∃ c ∈ (Formula.assign_true ⟨[], [[-1, -1, 2]]⟩ 1).clauses, (-1 : Int) ∈ c := by
  decide

/-- C2 (amended): after `assign_true f l` no surviving clause contains
`l` (unconditionally), and no surviving clause contains `-l` provided no
single clause of `f` contained `-l` more than once. -/
theorem assign_true_postcondition (f : Formula) (l : Literal) :
    (∀ c ∈ (f.assign_true l).clauses, l ∉ c) ∧
    ((∀ c ∈ f.clauses, c.count (-l) ≤ 1) →
      ∀ c ∈ (f.assign_true l).clauses, (-l) ∉ c) := by
  constructor
  · intro c' hc' hl
    rcases mem_assignClauses hc' with ⟨c, _, hno, rfl⟩
    exact hno (mem_of_mem_stripNeg hl)
  · intro hcount c' hc' hl
    rcases mem_assignClauses hc' with ⟨c, hc, _, rfl⟩
    exact not_mem_stripNeg_of_count_le (hcount c hc) hl

/-- Witness for the amended C2 at the formula `[[-1,2],[1,3]]`, literal `1`. -/
theorem assign_true_postcondition_witness :
    (∀ c ∈ (Formula.mk [] [[-1, 2], [1, 3]]).clauses, c.count (-(1 : Int)) ≤ 1) ∧
    (∀ c ∈ (Formula.assign_true ⟨[], [[-1, 2], [1, 3]]⟩ 1).clauses, (1 : Int) ∉ c) ∧
    (∀ c ∈ (Formula.assign_true ⟨[], [[-1, 2], [1, 3]]⟩ 1).clauses, (-(1 : Int)) ∉ c) :=
  ⟨by decide,
   (assign_true_postcondition ⟨[], [[-1, 2], [1, 3]]⟩ 1).1,
   (assign_true_postcondition ⟨[], [[-1, 2], [1, 3]]⟩ 1).2 (by decide)⟩

/-- C3 (counterexample): assigning `1` in the formula `[[-1,2,3]]`
produces the clause `[3,2]`: `swap_remove` moves the last literal into
the removed slot, so the surviving literals `2,3` appear in reversed
order and the surviving clause is not a subsequence of the original. -/
theorem assign_true_reorders_literals :
    (Formula.assign_true ⟨[], [[-1, 2, 3]]⟩ 1).clauses = [[3, 2]] ∧
      ¬ List.Sublist [(3 : Int), 2] [-1, 2, 3] := by
  constructor
  · decide
  · decide

/-- C3 (amended): `assign_true` keeps the surviving clauses in their
original relative order (they correspond one-to-one, in order, to the
clauses not containing the literal), and each surviving clause keeps
exactly its original multiset of literals minus one occurrence of the
negated literal; the order of literals inside a clause is however not
preserved in general. -/
theorem assign_true_clause_multisets (f : Formula) (l : Literal) :
    List.Forall₂
      (fun (c c' : Clause) =>
        (c' : Multiset Literal) = (c : Multiset Literal).erase (-l))
      (f.clauses.filter (fun c => !(c.contains l))) ((f.assign_true l).clauses) := by
  rw [assign_true_clauses]
  unfold assignClauses
  rw [List.forall₂_map_right_iff, List.forall₂_same]
  intro c _
  rw [show ((c : Multiset Literal).erase (-l)) = ((c.erase (-l) : Clause) : Multiset Literal)
      from (Multiset.coe_erase c (-l)).symm]
  exact Multiset.coe_eq_coe.mpr (stripNeg_perm (-l) c)

/-- C4: `with_true` returns the result of assigning the literal on a
copy, and the receiver is structurally unchanged: same assignment trail
and same clause collection as before the call. -/
theorem with_true_frame (f : Formula) (l : Literal) :
    (f.with_true l).2.assignments = f.assignments ∧
    (f.with_true l).2.clauses = f.clauses ∧
    (f.with_true l).1 = f.assign_true l :=
  ⟨rfl, rfl, rfl⟩

/-! ### Sorting and dedup of the forced literals -/

theorem dedupAdj_nodup_of_sorted :
    ∀ l : List Literal, List.Sorted (· ≤ ·) l → (dedupAdj l).Nodup
  | [], _ => List.nodup_nil
  | [a], _ => List.nodup_singleton a
  | a :: b :: rest, hs => by
    have hsrest : List.Sorted (· ≤ ·) (b :: rest) := hs.of_cons
    have hab : a ≤ b := (List.sorted_cons.mp hs).1 b (List.mem_cons_self b rest)
    unfold dedupAdj
    by_cases he : a = b
    · rw [if_pos he]
      exact dedupAdj_nodup_of_sorted (b :: rest) hsrest
    · rw [if_neg he]
      refine List.nodup_cons.mpr ⟨?_, dedupAdj_nodup_of_sorted (b :: rest) hsrest⟩
      intro hmem
      have hbr : a ∈ b :: rest := (mem_dedupAdj (b :: rest) a).mp hmem
      have hge : b ≤ a := by
        rcases List.mem_cons.mp hbr with rfl | hr
        · exact le_refl a
        · exact (List.sorted_cons.mp hsrest).1 a hr
      exact he (le_antisymm hab hge)

theorem sortLits_sorted (l : List Literal) : List.Sorted (· ≤ ·) (sortLits l) :=
  List.sorted_insertionSort (· ≤ ·) l

theorem dedupAdj_sortLits_nodup (l : List Literal) :
    (dedupAdj (sortLits l)).Nodup :=
  dedupAdj_nodup_of_sorted (sortLits l) (sortLits_sorted l)

theorem dedupAdj_sortLits_length (xs : List Literal) :
    (dedupAdj (sortLits xs)).length = xs.dedup.length := by
  have h1 : (dedupAdj (sortLits xs)).Nodup := dedupAdj_sortLits_nodup xs
  have hfs : (dedupAdj (sortLits xs)).toFinset = xs.dedup.toFinset := by
    apply Finset.ext
    intro x
    rw [List.mem_toFinset, List.mem_toFinset, mem_dedupAdj, mem_sortLits,
      List.mem_dedup]
  have e1 : (dedupAdj (sortLits xs)).toFinset.card
      = (dedupAdj (sortLits xs)).dedup.length := List.card_toFinset _
  rw [List.dedup_eq_self.mpr h1] at e1
  have e2 : xs.dedup.toFinset.card = xs.dedup.dedup.length := List.card_toFinset _
  rw [List.dedup_eq_self.mpr (List.nodup_dedup xs)] at e2
  rw [← e1, ← e2, hfs]

/-- C5: one `unit_propagate` pass forces exactly the literals of the
clauses that are unit at entry: the forced list is duplicate-free, its
members are exactly the literals `x` with `[x]` among the clauses at
entry, the unit-propagation counter rises by the number of distinct
collected literals, the node counter is untouched, and the resulting
formula is the left fold of `assign_true` over the forced list — a
single batched pass, so clauses becoming unit during the pass are not
forced within it. -/
theorem unit_propagate_characterisation (f : Formula) (s : State) :
    (dedupAdj (sortLits (unitLits f))).Nodup ∧
    (∀ x : Literal, x ∈ dedupAdj (sortLits (unitLits f)) ↔ [x] ∈ f.clauses) ∧
    (f.unit_propagate s).2.unit_propagation_counter
      = s.unit_propagation_counter + (unitLits f).dedup.length ∧
    (f.unit_propagate s).2.node_counter = s.node_counter ∧
    (f.unit_propagate s).1
      = (dedupAdj (sortLits (unitLits f))).foldl (fun g l => g.assign_true l) f := by
  refine ⟨dedupAdj_sortLits_nodup _, mem_propagated_lits f, ?_, ?_, ?_⟩
  · rw [unit_propagate_snd, dedupAdj_sortLits_length]
  · rw [unit_propagate_snd]
  · rw [unit_propagate_fst]

/-! ### Counts stored by the mom tally -/

theorem tallyStep_snd (acc : List Literal × (Literal → Nat)) (x k : Literal) :
    (tallyStep acc x).2 k
      = if x ∈ acc.1 then (if k = x then acc.2 x + 1 else acc.2 k)
        else (if k = x then 0 else acc.2 k) := by
  unfold tallyStep
  split
  · rfl
  · rfl

theorem tally_counts :
    ∀ (xs : List Literal) (acc : List Literal × (Literal → Nat)) (k : Literal),
      (xs.foldl tallyStep acc).2 k
        = if k ∈ acc.1 then acc.2 k + xs.count k
          else if k ∈ xs then xs.count k - 1 else acc.2 k
  | [], acc, k => by
    by_cases hk : k ∈ acc.1
    · simp [hk]
    · simp [hk]
  | x :: xs, acc, k => by
    rw [List.foldl_cons, tally_counts xs (tallyStep acc x) k]
    have hfst := tallyStep_fst acc x
    have hsnd := tallyStep_snd acc x k
    by_cases hx : x ∈ acc.1
    · rw [if_pos hx] at hfst hsnd
      by_cases hk : k = x
      · subst hk
        have hkacc : k ∈ acc.1 := hx
        rw [hfst, if_pos hkacc, if_pos hkacc, hsnd, if_pos rfl,
          List.count_cons_self]
        omega
      · rw [hfst, hsnd, if_neg hk]
        have hcnt : (x :: xs).count k = xs.count k := by
          rw [List.count_cons]
          simp [Ne.symm hk]
        by_cases hkacc : k ∈ acc.1
        · rw [if_pos hkacc, if_pos hkacc, hcnt]
        · rw [if_neg hkacc, if_neg hkacc]
          have hmem : (k ∈ x :: xs) ↔ (k ∈ xs) := by
            simp [List.mem_cons, hk]
          by_cases hkxs : k ∈ xs
          · rw [if_pos hkxs, if_pos (hmem.mpr hkxs), hcnt]
          · rw [if_neg hkxs, if_neg (fun hc => hkxs (hmem.mp hc))]
    · rw [if_neg hx] at hfst hsnd
      by_cases hk : k = x
      · subst hk
        have hkacc' : k ∈ acc.1 ++ [k] := by simp
        rw [hfst, if_pos hkacc', hsnd, if_pos rfl, if_neg hx,
          if_pos (List.mem_cons_self k xs), List.count_cons_self]
        omega
      · rw [hfst, hsnd, if_neg hk]
        have hcnt : (x :: xs).count k = xs.count k := by
          rw [List.count_cons]
          simp [Ne.symm hk]
        have hacc' : (k ∈ acc.1 ++ [x]) ↔ (k ∈ acc.1) := by
          simp [List.mem_append, hk]
        by_cases hkacc : k ∈ acc.1
        · rw [if_pos (hacc'.mpr hkacc), if_pos hkacc, hcnt]
        · rw [if_neg (fun hc => hkacc (hacc'.mp hc)), if_neg hkacc]
          have hmem : (k ∈ x :: xs) ↔ (k ∈ xs) := by
            simp [List.mem_cons, hk]
          by_cases hkxs : k ∈ xs
          · rw [if_pos hkxs, if_pos (hmem.mpr hkxs), hcnt]
          · rw [if_neg hkxs, if_neg (fun hc => hkxs (hmem.mp hc))]

theorem momCount_eq (f : Formula) (k : Literal) :
    momCount f k = if k ∈ momPool f then (momPool f).count k - 1 else 0 := by
  unfold momCount momTally
  rw [tally_counts]
  simp

/-- C6 (amended): every literal that `Formula::mom` can return (any
hash iteration order) occurs among the minimum-length clauses, counted
with multiplicity — occurrences, not distinct clauses — at least as
often as any other literal. (The stored tallies are off by one, since a
fresh key is inserted with count 0, but that shifts all tallies equally
and does not change which literals are maximal.) -/
theorem isMomResult_max_occurrences (f : Formula) (l : Literal)
    (h : IsMomResult f l) :
    l ∈ momPool f ∧ ∀ x : Literal, (momPool f).count x ≤ (momPool f).count l := by
  obtain ⟨hk, hmax⟩ := h
  have hlpool : l ∈ momPool f := (mem_momKeysAll_iff f l).mp hk
  refine ⟨hlpool, fun x => ?_⟩
  by_cases hx : x ∈ momPool f
  · have hxk : x ∈ momKeysAll f := (mem_momKeysAll_iff f x).mpr hx
    have hle := hmax x hxk
    rw [momCount_eq, momCount_eq, if_pos hx, if_pos hlpool] at hle
    have hc1 : 0 < (momPool f).count x := List.count_pos_iff.mpr hx
    have hc2 : 0 < (momPool f).count l := List.count_pos_iff.mpr hlpool
    omega
  · rw [List.count_eq_zero_of_not_mem hx]
    exact Nat.zero_le _

/-- Witness for the amended C6 at the formula `[[1,2],[1,3]]`. -/
theorem isMomResult_max_occurrences_witness :
    IsMomResult ⟨[], [[1, 2], [1, 3]]⟩ 1 ∧
    (1 ∈ momPool ⟨[], [[1, 2], [1, 3]]⟩ ∧
      ∀ x : Literal, (momPool ⟨[], [[1, 2], [1, 3]]⟩).count x
        ≤ (momPool ⟨[], [[1, 2], [1, 3]]⟩).count 1) :=
  ⟨by decide, isMomResult_max_occurrences ⟨[], [[1, 2], [1, 3]]⟩ 1 (by decide)⟩

/-- C6 (counterexample): on `[[1,1],[1,1],[2,3],[2,4],[2,5]]` (all
clauses of the minimal length 2) the only literal `mom` can return is
`1` — its occurrence tally 4 beats every other literal under any hash
order — yet `1` occurs in only 2 minimum-length clauses while literal
`2` occurs in 3 of them, so the returned literal does not maximise the
number of minimum-length clauses it occurs in. -/
theorem mom_not_clause_count_max :
    IsMomResult ⟨[], [[1, 1], [1, 1], [2, 3], [2, 4], [2, 5]]⟩ 1 ∧
    Formula.mom ⟨[], [[1, 1], [1, 1], [2, 3], [2, 4], [2, 5]]⟩ = 1 ∧
    (∀ l : Literal,
      IsMomResult ⟨[], [[1, 1], [1, 1], [2, 3], [2, 4], [2, 5]]⟩ l →
      ((momMinClauses ⟨[], [[1, 1], [1, 1], [2, 3], [2, 4], [2, 5]]⟩).countP
          (fun c => c.contains l))
        < ((momMinClauses ⟨[], [[1, 1], [1, 1], [2, 3], [2, 4], [2, 5]]⟩).countP
          (fun c => c.contains 2))) := by
  refine ⟨by decide, by decide, ?_⟩
  intro l hl
  have hk : l ∈ momKeysAll ⟨[], [[1, 1], [1, 1], [2, 3], [2, 4], [2, 5]]⟩ := hl.1
  have hmax := hl.2
  have hkeys : momKeysAll ⟨[], [[1, 1], [1, 1], [2, 3], [2, 4], [2, 5]]⟩
      = [1, 2, 3, 4, 5] := by decide
  rw [hkeys] at hk
  have h1 := hmax 1 (by rw [hkeys]; exact List.mem_cons_self 1 [2, 3, 4, 5])
  fin_cases hk
  · decide
  · exact absurd h1 (by decide)
  · exact absurd h1 (by decide)
  · exact absurd h1 (by decide)
  · exact absurd h1 (by decide)

/-! ### The DIMACS reader -/

/-- One step of splitting a character list on newline characters. -/
def nlStep (c : Char) : List (List Char) → List (List Char)
  | [] => [[c]]
  | h :: t => if c = '\n' then [] :: h :: t else (c :: h) :: t

/-- Model of splitting on `'\n'` (Rust `str::split('\n')` semantics):
always returns at least one piece, one more piece per newline. -/
def splitOnNL (cs : List Char) : List (List Char) :=
  cs.foldr nlStep [[]]

/-- Strip one trailing carriage return, as Rust `str::lines` does on
every piece that was terminated by a newline. -/
def stripCR (l : List Char) : List Char :=
  if l.getLast? = some '\r' then l.dropLast else l

/-- Model of Rust `str::lines`: split on `'\n'`, strip a trailing
`'\r'` from every newline-terminated piece, and drop the final empty
piece produced by a trailing newline. -/
def rustLines (s : String) : List String :=
  let parts := splitOnNL s.data
  let front := (parts.dropLast.map stripCR).map String.mk
  match parts.getLast? with
  | some [] => front
  | some last => front ++ [String.mk last]
  | none => front

/-- Model of Rust `str::split_whitespace`: maximal runs of
non-whitespace characters, empty tokens skipped. -/
def splitWSAux : List Char → List Char → List (List Char)
  | [], acc => if acc = [] then [] else [acc.reverse]
  | c :: rest, acc =>
    if c.isWhitespace then
      (if acc = [] then splitWSAux rest []
       else acc.reverse :: splitWSAux rest [])
    else splitWSAux rest (c :: acc)

/-- Tokens of a line, as produced by Rust `str::split_whitespace`
(whitespace is modelled by `Char.isWhitespace`, which covers the ASCII
whitespace of DIMACS text). -/
def rustSplitWhitespace (s : String) : List String :=
  (splitWSAux s.data []).map String.mk

/-- Model of Rust `str::starts_with(char)`. -/
def startsWithC (s : String) (c : Char) : Bool :=
  match s.data with
  | [] => false
  | d :: _ => d = c

/-- Value of a run of decimal digits. -/
def digitsToNat (l : List Char) : Nat :=
  l.foldl (fun n c => n * 10 + (c.toNat - '0'.toNat)) 0

/-- Model of Rust `str::parse::<isize>` on a 64-bit target: an optional
sign followed by at least one decimal digit, value within the `i64`
range; `none` models a `ParseIntError`. -/
def parseIsize (s : String) : Option Int :=
  let signAndDigits : Int × List Char :=
    match s.data with
    | '+' :: rest => (1, rest)
    | '-' :: rest => (-1, rest)
    | rest => (1, rest)
  let sign := signAndDigits.1
  let ds := signAndDigits.2
  if ds = [] then none
  else if ds.all Char.isDigit then
    let n : Int := sign * (digitsToNat ds : Int)
    if -(2 ^ 63) ≤ n ∧ n < 2 ^ 63 then some n else none
  else none

/-- Model of the per-line body of `parse_dimacs_file`: split the line on
whitespace, keep the tokens strictly before the first `"0"` sentinel,
parse each as a signed integer; a failing token yields the error that
names the line's text (the `with_context` message). -/
def parseLine (line : String) : Except String (List Int) :=
  match ((rustSplitWhitespace line).takeWhile (fun t => t ≠ "0")).mapM parseIsize with
  | some lits => Except.ok lits
  | none => Except.error ("Failed to parse line: " ++ line)

/-- Model of `parse_dimacs_file`: drop leading lines starting with the
comment marker `'c'`, drop exactly one further line, parse every
remaining line, short-circuiting at the first failure; the outer
`context` call is modelled by prefixing its message to the line error. -/
def parse_dimacs_file (problem : String) : Except String Formula :=
  match (((rustLines problem).dropWhile (fun l => startsWithC l 'c')).drop 1).mapM
      parseLine with
  | Except.ok clauses => Except.ok { assignments := [], clauses := clauses }
  | Except.error e => Except.error ("Failed to parse dimacs file: " ++ e)

/-- Success test for a line result, as used by the short-circuiting
`collect`. -/
def exceptIsOk : Except String (List Int) → Bool
  | Except.ok _ => true
  | Except.error _ => false

instance {ε α : Type} [DecidableEq ε] [DecidableEq α] :
    DecidableEq (Except ε α) := fun x y =>
  match x, y with
  | Except.ok a, Except.ok b =>
    if h : a = b then isTrue (by rw [h])
    else isFalse (fun he => h (by cases he; rfl))
  | Except.ok _, Except.error _ => isFalse (fun he => Except.noConfusion he)
  | Except.error _, Except.ok _ => isFalse (fun he => Except.noConfusion he)
  | Except.error e, Except.error e' =>
    if h : e = e' then isTrue (by rw [h])
    else isFalse (fun he => h (by cases he; rfl))

theorem parseLine_error {l : String} (h : exceptIsOk (parseLine l) = false) :
    parseLine l = Except.error ("Failed to parse line: " ++ l) := by
  unfold parseLine at h ⊢
  cases hm : ((rustSplitWhitespace l).takeWhile (fun t => t ≠ "0")).mapM parseIsize with
  | some lits =>
    rw [hm] at h
    simp [exceptIsOk] at h
  | none => rfl

theorem parseLine_ok_toks {l : String} {c : List Int}
    (h : parseLine l = Except.ok c) :
    ((rustSplitWhitespace l).takeWhile (fun t => t ≠ "0")).mapM parseIsize
      = some c := by
  unfold parseLine at h
  cases hm : ((rustSplitWhitespace l).takeWhile (fun t => t ≠ "0")).mapM parseIsize with
  | some lits =>
    rw [hm] at h
    have h' : Except.ok lits = Except.ok c := h
    injection h' with h''
    rw [h'']
  | none =>
    rw [hm] at h
    exact Except.noConfusion h

theorem mapM_parseIsize_forall₂ :
    ∀ (ts : List String) (vs : List Int), ts.mapM parseIsize = some vs →
      List.Forall₂ (fun t v => parseIsize t = some v) ts vs
  | [], vs, h => by
    cases h
    exact List.Forall₂.nil
  | t :: ts, vs, h => by
    rw [List.mapM_cons] at h
    cases hpt : parseIsize t with
    | none => rw [hpt] at h; simp at h
    | some v =>
      rw [hpt] at h
      cases hts : ts.mapM parseIsize with
      | none => rw [hts] at h; simp at h
      | some bs =>
        rw [hts] at h
        simp only [Option.bind_some, Option.pure_def] at h
        cases h
        exact List.Forall₂.cons hpt (mapM_parseIsize_forall₂ ts bs hts)

theorem mapM_parseLine_ok_of_forall :
    ∀ ls : List String, (∀ l ∈ ls, ∃ c, parseLine l = Except.ok c) →
      ∃ cls, ls.mapM parseLine = Except.ok cls ∧
        List.Forall₂ (fun l c => parseLine l = Except.ok c) ls cls
  | [], _ => ⟨[], rfl, List.Forall₂.nil⟩
  | l :: ls, h => by
    obtain ⟨c, hc⟩ := h l (List.mem_cons_self l ls)
    obtain ⟨cls, hcls, hfa⟩ :=
      mapM_parseLine_ok_of_forall ls (fun x hx => h x (List.mem_cons_of_mem l hx))
    refine ⟨c :: cls, ?_, List.Forall₂.cons hc hfa⟩
    rw [List.mapM_cons, hc, hcls]
    rfl

theorem mapM_parseLine_forall₂ :
    ∀ (ls : List String) (cls : List (List Int)),
      ls.mapM parseLine = Except.ok cls →
      List.Forall₂ (fun l c => parseLine l = Except.ok c) ls cls
  | [], cls, h => by
    cases h
    exact List.Forall₂.nil
  | l :: ls, cls, h => by
    rw [List.mapM_cons] at h
    cases hpl : parseLine l with
    | error e =>
      rw [hpl] at h
      exact absurd h (fun he => Except.noConfusion he)
    | ok c =>
      rw [hpl] at h
      cases hls : ls.mapM parseLine with
      | error e =>
        rw [hls] at h
        exact absurd h (fun he => Except.noConfusion he)
      | ok bs =>
        rw [hls] at h
        cases h
        exact List.Forall₂.cons hpl (mapM_parseLine_forall₂ ls bs hls)

theorem mapM_parseLine_error_of_find :
    ∀ (ls : List String) (l : String),
      ls.find? (fun l => !(exceptIsOk (parseLine l))) = some l →
      ls.mapM parseLine = Except.error ("Failed to parse line: " ++ l)
  | [], l, h => by simp at h
  | x :: ls, l, h => by
    rw [List.find?_cons] at h
    cases hx : exceptIsOk (parseLine x) with
    | true =>
      rw [hx] at h
      have h' : ls.find? (fun l => !(exceptIsOk (parseLine l))) = some l := h
      obtain ⟨c, hc⟩ : ∃ c, parseLine x = Except.ok c := by
        cases hpc : parseLine x with
        | ok c => exact ⟨c, rfl⟩
        | error e =>
          rw [hpc] at hx
          simp [exceptIsOk] at hx
      rw [List.mapM_cons, hc, mapM_parseLine_error_of_find ls l h']
      rfl
    | false =>
      rw [hx] at h
      have hxl : x = l := by
        have h' : some x = some l := h
        exact Option.some.inj h'
      subst hxl
      rw [List.mapM_cons, parseLine_error hx]
      rfl

theorem forall₂_exists_right {R : String → List Int → Prop} :
    ∀ {xs : List String} {ys : List (List Int)} {x : String},
      List.Forall₂ R xs ys → x ∈ xs → ∃ y ∈ ys, R x y
  | _, _, x, List.Forall₂.cons hR hfa, hmem => by
    rcases List.mem_cons.mp hmem with rfl | hmem'
    · exact ⟨_, List.mem_cons_self _ _, hR⟩
    · obtain ⟨y, hy, hRy⟩ := forall₂_exists_right hfa hmem'
      exact ⟨y, List.mem_cons_of_mem _ hy, hRy⟩

/-- C9: behaviour of the DIMACS reader. Lines beginning with the
comment marker `'c'` are skipped, then exactly one further line is
skipped unconditionally; when every remaining line parses, the result is
the `Formula` with empty trail whose clauses correspond line-by-line to
the parsed lines; when some line fails, the result is the error naming
the first offending line's text; and a line parses to exactly the
signed integers of its whitespace tokens up to and excluding the first
`"0"` sentinel. -/
theorem parse_dimacs_characterisation (problem : String) :
    ((∀ l ∈ ((rustLines problem).dropWhile (fun l => startsWithC l 'c')).drop 1,
        ∃ c, parseLine l = Except.ok c) →
      ∃ cls, parse_dimacs_file problem = Except.ok ⟨[], cls⟩ ∧
        List.Forall₂ (fun l c => parseLine l = Except.ok c)
          (((rustLines problem).dropWhile (fun l => startsWithC l 'c')).drop 1) cls) ∧
    (∀ l : String,
      ((((rustLines problem).dropWhile (fun l => startsWithC l 'c')).drop 1).find?
        (fun l => !(exceptIsOk (parseLine l)))) = some l →
      parse_dimacs_file problem
        = Except.error
            ("Failed to parse dimacs file: " ++ ("Failed to parse line: " ++ l))) ∧
    (∀ (l : String) (c : List Int), parseLine l = Except.ok c →
      List.Forall₂ (fun t v => parseIsize t = some v)
        ((rustSplitWhitespace l).takeWhile (fun t => t ≠ "0")) c) := by
  refine ⟨?_, ?_, ?_⟩
  · intro hall
    obtain ⟨cls, hcls, hfa⟩ := mapM_parseLine_ok_of_forall _ hall
    refine ⟨cls, ?_, hfa⟩
    unfold parse_dimacs_file
    rw [hcls]
  · intro l hfind
    unfold parse_dimacs_file
    rw [mapM_parseLine_error_of_find _ l hfind]
  · intro l c hok
    exact mapM_parseIsize_forall₂ _ _ (parseLine_ok_toks hok)

/-- Witness for C9: a well-formed DIMACS text is read into its clause
list, and a text whose third line holds the unparsable token `a` fails
with the error naming that line. -/
theorem parse_dimacs_characterisation_witness :
    (∃ cls, parse_dimacs_file "c x\np cnf 2 1\n1 -2 0" = Except.ok ⟨[], cls⟩ ∧
      List.Forall₂ (fun l c => parseLine l = Except.ok c)
        (((rustLines "c x\np cnf 2 1\n1 -2 0").dropWhile
          (fun l => startsWithC l 'c')).drop 1) cls) ∧
    parse_dimacs_file "p\n1 a 0"
      = Except.error
          ("Failed to parse dimacs file: " ++ ("Failed to parse line: " ++ "1 a 0")) :=
  ⟨(parse_dimacs_characterisation "c x\np cnf 2 1\n1 -2 0").1
      (by
        intro l hl
        have hl' : l = "1 -2 0" := by
          have hb : ((rustLines "c x\np cnf 2 1\n1 -2 0").dropWhile
              (fun l => startsWithC l 'c')).drop 1 = ["1 -2 0"] := by decide
          rw [hb] at hl
          exact List.mem_singleton.mp hl
        exact ⟨[1, -2], by rw [hl']; decide⟩),
   (parse_dimacs_characterisation "p\n1 a 0").2.1 "1 a 0" (by decide)⟩

/-- C10: any post-header line with no literal tokens — blank or
whitespace-only, or with `"0"` as its first token — contributes an
empty clause to the parsed formula, and the presence of that empty
clause makes `solve` report Unsatisfiable. -/
theorem empty_line_gives_unsat (p : Picker) (s : State) (problem : String)
    (F : Formula) (l : String)
    (hok : parse_dimacs_file problem = Except.ok F)
    (hmem : l ∈ ((rustLines problem).dropWhile (fun l => startsWithC l 'c')).drop 1)
    (hno : rustSplitWhitespace l = [] ∨ (rustSplitWhitespace l).head? = some "0") :
    [] ∈ F.clauses ∧ (solve p s F).1 = none := by
  have htoks : (rustSplitWhitespace l).takeWhile (fun t => t ≠ "0") = [] := by
    rcases hno with h | h
    · rw [h]
      rfl
    · cases hws : rustSplitWhitespace l with
      | nil => rfl
      | cons t ts =>
        rw [hws] at h
        have ht : t = "0" := by simpa using h
        subst ht
        simp [List.takeWhile_cons]
  have hline : parseLine l = Except.ok [] := by
    unfold parseLine
    rw [htoks]
    rfl
  have hcl : [] ∈ F.clauses := by
    unfold parse_dimacs_file at hok
    cases hm : (((rustLines problem).dropWhile
        (fun l => startsWithC l 'c')).drop 1).mapM parseLine with
    | error e =>
      rw [hm] at hok
      exact Except.noConfusion hok
    | ok cls =>
      rw [hm] at hok
      have hF : F = ⟨[], cls⟩ := by
        have h' : Except.ok (Formula.mk [] cls) = Except.ok F := hok
        injection h' with h''
        rw [h'']
      obtain ⟨y, hy, hRy⟩ :=
        forall₂_exists_right (mapM_parseLine_forall₂ _ _ hm) hmem
      have hy0 : y = [] := by
        rw [hline] at hRy
        exact (Except.ok.inj hRy).symm
      rw [hF]
      rw [hy0] at hy
      exact hy
  exact ⟨hcl, (solveRec_of_mem_empty p s hcl).1⟩

/-- Witness for C10: in the text `"p\n\n1 0"` the blank second line
yields the empty clause and the whole formula is reported UNSAT. -/
theorem empty_line_gives_unsat_witness :
    [] ∈ (Formula.mk [] [[], [1]]).clauses ∧
      (solve momPicker ⟨0, 0⟩ ⟨[], [[], [1]]⟩).1 = none :=
  empty_line_gives_unsat momPicker ⟨0, 0⟩ "p\n\n1 0" ⟨[], [[], [1]]⟩ ""
    (by decide) (by decide) (Or.inl (by decide))
